import Mathlib

/-!
Shallow embedding of `aws-c-compression`'s streaming Huffman codec
(`source/huffman.c`, `include/aws/compression/huffman.h`).

Machine integers are modelled as `Nat` with explicit `% 2 ^ w` at the points
where the C code truncates (u8 stores, u32 shifts, u64 shifts).  Byte buffers
(`aws_byte_buf`) are a list of bytes plus a capacity; byte cursors
(`aws_byte_cursor`) are the not-yet-consumed list of bytes, returned alongside
each result.  The symbol coder (`aws_huffman_symbol_coder`) is a pair of pure
functions, passed to each operation explicitly (the C stores a pointer to it in
the encoder/decoder struct; it is never mutated).  Fallible operations return
an `opResult` (`AWS_OP_SUCCESS` / `AWS_ERROR_SHORT_BUFFER` /
`AWS_ERROR_COMPRESSION_UNKNOWN_SYMBOL`) together with the updated state.
-/

/-- `struct aws_huffman_code`: `pattern` is a `uint32_t` (value of the code,
stored in the least significant bits), `num_bits` a `uint8_t`. -/
structure aws_huffman_code where
  pattern : Nat
  num_bits : Nat
deriving DecidableEq, Repr

/-- `struct aws_huffman_symbol_coder`: `encode` maps a symbol (u8) to a code;
`decode` maps a 32-bit window to `(symbol, bits_read)`.  The C functions have
return types u8; truncation to 8 bits is applied at each call site. -/
structure aws_huffman_symbol_coder where
  encode : Nat → aws_huffman_code
  decode : Nat → Nat × Nat

/-- `struct aws_huffman_encoder` (sans the coder pointer, which is passed
explicitly to each operation). -/
structure aws_huffman_encoder where
  eos_padding : Nat
  overflow_bits : aws_huffman_code
deriving DecidableEq, Repr

/-- `struct aws_huffman_decoder` (sans the coder pointer). -/
structure aws_huffman_decoder where
  working_bits : Nat
  num_bits : Nat
deriving DecidableEq, Repr

/-- `struct aws_byte_buf`: append-only fixed-capacity buffer. -/
structure aws_byte_buf where
  data : List Nat
  capacity : Nat
deriving DecidableEq, Repr

/-- Result surface of the two streaming operations. -/
inductive opResult
  | success
  | shortBuffer
  | unknownSymbol
deriving DecidableEq, Repr

/-- `aws_byte_buf_write_u8`: appends one byte if there is room, otherwise
leaves the buffer unchanged (the C function returns `false` in that case; the
return value is ignored throughout `huffman.c`). -/
def aws_byte_buf_write_u8 (buf : aws_byte_buf) (b : Nat) : aws_byte_buf :=
  if buf.data.length < buf.capacity then { buf with data := buf.data ++ [b] } else buf

/-- `aws_huffman_encoder_init`: zeroes the struct, then sets
`eos_padding = UINT8_MAX`. -/
def aws_huffman_encoder_init : aws_huffman_encoder :=
  { eos_padding := 255, overflow_bits := ⟨0, 0⟩ }

/-- `aws_huffman_encoder_reset`: re-init, preserving `eos_padding`. -/
def aws_huffman_encoder_reset (encoder : aws_huffman_encoder) : aws_huffman_encoder :=
  { aws_huffman_encoder_init with eos_padding := encoder.eos_padding }

/-- `aws_huffman_decoder_init`: zeroes the struct. -/
def aws_huffman_decoder_init : aws_huffman_decoder :=
  { working_bits := 0, num_bits := 0 }

/-- `aws_huffman_decoder_reset`. -/
def aws_huffman_decoder_reset (_decoder : aws_huffman_decoder) : aws_huffman_decoder :=
  aws_huffman_decoder_init

/-- `struct encoder_state` from `huffman.c`: the in-progress partial byte
`working`, the count of free low bit positions `bit_pos`, the output buffer,
and the encoder's `overflow_bits` field (the C keeps a pointer to the encoder;
we inline the one field the helper reads and writes). -/
structure encoder_state where
  working : Nat
  bit_pos : Nat
  output_buf : aws_byte_buf
  overflow_bits : aws_huffman_code
deriving DecidableEq, Repr

/-- The `while (bits_to_write > 0)` loop of `encode_write_bit_pattern`.
`MAX_PATTERN_BITS = 32`.  All u32 shifts truncate with `% 2 ^ 32`, the u8
store into `working` truncates with `% 2 ^ 8`. -/
def encode_write_loop (pattern num_bits bits_to_write : Nat) (st : encoder_state) :
    opResult × encoder_state :=
  if bits_to_write = 0 then (.success, st)
  else
    let bits_for_current := if bits_to_write > st.bit_pos then st.bit_pos else bits_to_write
    let bits_to_cut := (32 - num_bits) + (num_bits - bits_to_write)
    let working := (st.working ||| ((pattern <<< bits_to_cut) % 2 ^ 32) >>> (32 - st.bit_pos)) % 2 ^ 8
    let bits_to_write' := bits_to_write - bits_for_current
    let bit_pos' := st.bit_pos - bits_for_current
    if bit_pos' = 0 then
      let buf := aws_byte_buf_write_u8 st.output_buf working
      if buf.data.length = buf.capacity then
        (.shortBuffer,
          { working := 0, bit_pos := 8, output_buf := buf,
            overflow_bits :=
              if bits_to_write' ≠ 0 then
                ⟨((pattern <<< (bits_to_cut + bits_for_current)) % 2 ^ 32) >>> (32 - bits_to_write'),
                  bits_to_write'⟩
              else
                ⟨st.overflow_bits.pattern, bits_to_write'⟩ })
      else
        encode_write_loop pattern num_bits bits_to_write'
          { st with working := 0, bit_pos := 8, output_buf := buf }
    else
      encode_write_loop pattern num_bits bits_to_write'
        { st with working := working, bit_pos := bit_pos' }
termination_by 2 * bits_to_write + (8 - st.bit_pos)
decreasing_by
  all_goals (repeat' split) <;> omega

/-- `encode_write_bit_pattern`: raises unknown-symbol on a zero-length code,
otherwise runs the bit-writing loop. -/
def encode_write_bit_pattern (st : encoder_state) (bit_pattern : aws_huffman_code) :
    opResult × encoder_state :=
  if bit_pattern.num_bits = 0 then (.unknownSymbol, st)
  else encode_write_loop bit_pattern.pattern bit_pattern.num_bits bit_pattern.num_bits st

/-- The `while (num_bits)` accumulation loop of
`aws_huffman_get_encoded_length`. -/
def get_encoded_length_bits (coder : aws_huffman_symbol_coder) :
    List Nat → Nat → Nat
  | [], num_bits => num_bits
  | new_byte :: rest, num_bits =>
      get_encoded_length_bits coder rest (num_bits + (coder.encode new_byte).num_bits)

/-- `aws_huffman_get_encoded_length`: sum of `num_bits` over the sequence,
rounded up to whole bytes.  Takes the cursor by value; mutates nothing. -/
def aws_huffman_get_encoded_length (coder : aws_huffman_symbol_coder)
    (to_encode : List Nat) : Nat :=
  let num_bits := get_encoded_length_bits coder to_encode 0
  num_bits / 8 + if num_bits % 8 ≠ 0 then 1 else 0

/-- The `while (to_encode->len)` loop of `aws_huffman_encode`: reads one
symbol at a time and writes its code; stops on the first non-success result,
returning the not-yet-read remainder of the cursor. -/
def aws_huffman_encode_symbols (coder : aws_huffman_symbol_coder) :
    List Nat → encoder_state → opResult × encoder_state × List Nat
  | [], st => (.success, st, [])
  | new_byte :: rest, st =>
      let r := encode_write_bit_pattern st (coder.encode new_byte)
      match r.1 with
      | .success => aws_huffman_encode_symbols coder rest r.2
      | res => (res, r.2, rest)

/-- `aws_huffman_encode`.  Returns the result, the updated encoder, the
unread remainder of `to_encode`, and the output buffer. -/
def aws_huffman_encode (coder : aws_huffman_symbol_coder)
    (encoder : aws_huffman_encoder) (to_encode : List Nat) (output : aws_byte_buf) :
    opResult × aws_huffman_encoder × List Nat × aws_byte_buf :=
  if output.data.length = output.capacity then (.shortBuffer, encoder, to_encode, output)
  else
    let st0 : encoder_state :=
      { working := 0, bit_pos := 8, output_buf := output,
        overflow_bits := encoder.overflow_bits }
    -- write any bits leftover from previous invocation; on success the
    -- overflow field is zeroed (AWS_ZERO_STRUCT)
    let ovr : opResult × encoder_state :=
      if encoder.overflow_bits.num_bits ≠ 0 then
        let r := encode_write_bit_pattern st0 encoder.overflow_bits
        match r.1 with
        | .success => (.success, { r.2 with overflow_bits := ⟨0, 0⟩ })
        | res => (res, r.2)
      else (.success, st0)
    match ovr with
    | (.success, st1) =>
        match aws_huffman_encode_symbols coder to_encode st1 with
        | (.success, st2, rest) =>
            -- if the whole buffer was processed and the final byte is
            -- partial, write the EOS padding (result ignored)
            let st3 :=
              if st2.bit_pos ≠ 8 then
                (encode_write_bit_pattern st2 ⟨encoder.eos_padding, st2.bit_pos⟩).2
              else st2
            (.success, ⟨encoder.eos_padding, st3.overflow_bits⟩, rest, st3.output_buf)
        | (res, st2, rest) =>
            (res, ⟨encoder.eos_padding, st2.overflow_bits⟩, rest, st2.output_buf)
    | (res, st1) =>
        (res, ⟨encoder.eos_padding, st1.overflow_bits⟩, to_encode, st1.output_buf)

/-- `decode_fill_working_bits`: top up the 64-bit accumulator from the cursor
while fewer than `MAX_PATTERN_BITS = 32` bits are buffered.  Each new byte is
positioned immediately below the currently valid bits. -/
def decode_fill_working_bits (decoder : aws_huffman_decoder) (input : List Nat) :
    aws_huffman_decoder × List Nat :=
  if decoder.num_bits < 32 then
    match input with
    | [] => (decoder, [])
    | new_byte :: rest =>
        decode_fill_working_bits
          { working_bits := decoder.working_bits ||| (new_byte <<< (64 - 8 - decoder.num_bits)),
            num_bits := decoder.num_bits + 8 } rest
  else (decoder, input)

/-- The `while (1)` loop of `aws_huffman_decode`, carried by the running
`bits_left` counter.  `decode`'s u8 outputs are truncated with `% 2 ^ 8`; the
u64 left shift truncates with `% 2 ^ 64`; the u8 `num_bits` decrement wraps
modulo `2 ^ 8`. -/
def aws_huffman_decode_loop (coder : aws_huffman_symbol_coder)
    (decoder : aws_huffman_decoder) (input : List Nat) (output : aws_byte_buf)
    (bits_left : Nat) :
    opResult × aws_huffman_decoder × List Nat × aws_byte_buf :=
  match decode_fill_working_bits decoder input with
  | (d, input') =>
    if (coder.decode (d.working_bits >>> (64 - 32))).2 % 2 ^ 8 = 0 then
      if bits_left < 32 then
        -- more input is needed to continue
        (.success, d, input', output)
      else
        -- unknown symbol found
        (.unknownSymbol, d, input', output)
    else if bits_left < (coder.decode (d.working_bits >>> (64 - 32))).2 % 2 ^ 8 then
      -- the match used zero-fill below the true end of content
      (.success, d, input', output)
    else if output.data.length = output.capacity then
      (.shortBuffer, d, input', output)
    else
      let d' : aws_huffman_decoder :=
        { working_bits :=
            (d.working_bits <<< ((coder.decode (d.working_bits >>> (64 - 32))).2 % 2 ^ 8)) % 2 ^ 64,
          num_bits :=
            (d.num_bits + 2 ^ 8 - (coder.decode (d.working_bits >>> (64 - 32))).2 % 2 ^ 8) % 2 ^ 8 }
      let output' := aws_byte_buf_write_u8 output ((coder.decode (d.working_bits >>> (64 - 32))).1 % 2 ^ 8)
      if bits_left - (coder.decode (d.working_bits >>> (64 - 32))).2 % 2 ^ 8 = 0 then
        (.success, d', input', output')
      else
        aws_huffman_decode_loop coder d' input' output'
          (bits_left - (coder.decode (d.working_bits >>> (64 - 32))).2 % 2 ^ 8)
termination_by bits_left
decreasing_by omega

/-- `aws_huffman_decode`.  Returns the result, the updated decoder, the
unread remainder of `to_decode`, and the output buffer. -/
def aws_huffman_decode (coder : aws_huffman_symbol_coder)
    (decoder : aws_huffman_decoder) (to_decode : List Nat) (output : aws_byte_buf) :
    opResult × aws_huffman_decoder × List Nat × aws_byte_buf :=
  if output.data.length = output.capacity then (.shortBuffer, decoder, to_decode, output)
  else
    aws_huffman_decode_loop coder decoder to_decode output
      (decoder.num_bits + to_decode.length * 8)

/-! ## Bit-stream values

A bit string is represented by its numeric value together with its length:
the string `b₀ b₁ … b_{L-1}` (first bit = most significant) has value
`Σ bᵢ · 2 ^ (L - 1 - i)`.  Concatenation of `(v₁, L₁)` and `(v₂, L₂)` is
`(v₁ · 2 ^ L₂ + v₂, L₁ + L₂)`. -/

/-- Numeric value of a byte string (big-endian, i.e. in stream order). -/
def bytesVal : List Nat → Nat
  | [] => 0
  | b :: rest => b * 2 ^ (8 * rest.length) + bytesVal rest

/-- Total number of bits in the code sequence of a symbol list. -/
def codeSeqLen (coder : aws_huffman_symbol_coder) : List Nat → Nat
  | [] => 0
  | s :: rest => (coder.encode s).num_bits + codeSeqLen coder rest

/-- Value of the concatenated code bit string of a symbol list (each code
contributes its `num_bits` low bits of `pattern`, most significant first). -/
def codeSeqVal (coder : aws_huffman_symbol_coder) : List Nat → Nat
  | [] => 0
  | s :: rest =>
      (coder.encode s).pattern % 2 ^ (coder.encode s).num_bits * 2 ^ codeSeqLen coder rest +
        codeSeqVal coder rest

/-- The 32-bit decode window of a bit string `(v, L)`: its first 32 bits,
zero-extended on the right when `L < 32`. -/
def bitWindow (v L : Nat) : Nat :=
  if L < 32 then v <<< (32 - L) else v >>> (L - 32)

/-! ## Symbol coders used as concrete witnesses -/

/-- A coder mapping every symbol to the 8-bit code equal to the symbol
itself (a trivial deterministic prefix code). -/
def idCoder : aws_huffman_symbol_coder where
  encode s := ⟨s, 8⟩
  decode w := (w >>> 24, 8)

/-- The spec's worked example: `A = 0 ↦ 0 (1 bit)`, `B = 1 ↦ 10 (2 bits)`,
`C = 2 ↦ 11 (2 bits)`. -/
def abcCoder : aws_huffman_symbol_coder where
  encode s := if s = 0 then ⟨0, 1⟩ else if s = 1 then ⟨2, 2⟩ else if s = 2 then ⟨3, 2⟩ else ⟨0, 0⟩
  decode w :=
    if w >>> 31 = 0 then (0, 1)
    else if w >>> 30 = 2 then (1, 2)
    else (2, 2)

/-- A coder whose decode never matches anything. -/
def zeroCoder : aws_huffman_symbol_coder where
  encode _ := ⟨0, 0⟩
  decode _ := (0, 0)

/-- A coder giving every symbol the 1-bit code `0`. -/
def oneCoder : aws_huffman_symbol_coder where
  encode _ := ⟨0, 1⟩
  decode _ := (0, 1)

/-- A coder knowing only symbol `65` (1-bit code `0`). -/
def c4Coder : aws_huffman_symbol_coder where
  encode s := if s = 65 then ⟨0, 1⟩ else ⟨0, 0⟩
  decode _ := (0, 0)

/-! ## C6, C7, C8: decode branch behavior

`aws_huffman_decode` tail-calls `aws_huffman_decode_loop` with
`bits_left = num_bits + 8 * cursor length`, and this quantity stays equal to
the decoder's buffered bits plus `8 ×` the unread cursor bytes at every
iteration of the loop, so a theorem about an arbitrary loop state covers the
corresponding situation arising at any point of any call. -/

/-- C6: when the coder's decode returns `bits_read == 0` on the presented
32-bit window, the call returns success (with the post-top-up decoder state
retained, nothing consumed and nothing emitted) if `bits_remaining`
(buffered bits plus 8 × unread cursor bytes) is below 32, and otherwise
fails with unknown-symbol. -/
theorem decode_no_match_outcome (coder : aws_huffman_symbol_coder)
    (decoder d' : aws_huffman_decoder) (input input' : List Nat) (output : aws_byte_buf)
    (bits_left : Nat)
    (hbl : bits_left = decoder.num_bits + 8 * input.length)
    (hfill : decode_fill_working_bits decoder input = (d', input'))
    (h0 : (coder.decode (d'.working_bits >>> (64 - 32))).2 % 2 ^ 8 = 0) :
    aws_huffman_decode_loop coder decoder input output bits_left =
      if bits_left < 32 then (.success, d', input', output)
      else (.unknownSymbol, d', input', output) := by
  clear hbl
  rw [aws_huffman_decode_loop, hfill]
  dsimp only
  rw [if_pos h0]

/-- Witness for C6: a coder that never matches, one buffered-up byte,
`bits_remaining = 8 < 32`: success, state retained. -/
theorem decode_no_match_outcome_witness :
    aws_huffman_decode_loop zeroCoder ⟨0, 0⟩ [5] ⟨[], 2⟩ 8 =
      (.success, ⟨5 * 2 ^ 56, 8⟩, [], ⟨[], 2⟩) := by
  have h := decode_no_match_outcome zeroCoder ⟨0, 0⟩ ⟨5 * 2 ^ 56, 8⟩ [5] [] ⟨[], 2⟩ 8
    (by decide) (by decide) (by decide)
  simpa using h

/-- C7: when the coder's decode matches (`bits_read ≠ 0`) but
`bits_read` exceeds the remaining bit budget `bits_left`, the call returns
success without emitting the symbol: the matched code only matched because
of zero-fill below the true end of content, and those trailing zero bits are
discarded rather than decoded (decoder state and output are left exactly as
they were after the top-up, so no spurious symbol is ever produced from
end-of-stream padding when the true budget is respected). -/
theorem decode_overrun_outcome (coder : aws_huffman_symbol_coder)
    (decoder d' : aws_huffman_decoder) (input input' : List Nat) (output : aws_byte_buf)
    (bits_left : Nat)
    (hfill : decode_fill_working_bits decoder input = (d', input'))
    (hk : (coder.decode (d'.working_bits >>> (64 - 32))).2 % 2 ^ 8 ≠ 0)
    (hover : bits_left < (coder.decode (d'.working_bits >>> (64 - 32))).2 % 2 ^ 8) :
    aws_huffman_decode_loop coder decoder input output bits_left =
      (.success, d', input', output) := by
  rw [aws_huffman_decode_loop, hfill]
  dsimp only
  rw [if_neg hk, if_pos hover]

/-- Witness for C7: the 8-bit identity coder matches an all-zero window with
`bits_read = 8 > 0 = bits_left`: success, nothing emitted. -/
theorem decode_overrun_outcome_witness :
    aws_huffman_decode_loop idCoder ⟨0, 0⟩ [] ⟨[], 1⟩ 0 =
      (.success, ⟨0, 0⟩, [], ⟨[], 1⟩) := by
  have h := decode_overrun_outcome idCoder ⟨0, 0⟩ ⟨0, 0⟩ [] [] ⟨[], 1⟩ 0
    (by decide) (by decide) (by decide)
  simpa using h

/-- C8: when a genuine symbol was decoded (`bits_read ≠ 0` and
`bits_read ≤ bits_left`) but the output buffer is at capacity, the call
fails with short-buffer, the symbol is not emitted, and the decoder's
accumulator `(working_bits, num_bits)` is left exactly as it stood before
that code (the shift/decrement is not committed), so the code is not
consumed and the call is cleanly resumable with more output space. -/
theorem decode_short_buffer_outcome (coder : aws_huffman_symbol_coder)
    (decoder d' : aws_huffman_decoder) (input input' : List Nat) (output : aws_byte_buf)
    (bits_left : Nat)
    (hfill : decode_fill_working_bits decoder input = (d', input'))
    (hk : (coder.decode (d'.working_bits >>> (64 - 32))).2 % 2 ^ 8 ≠ 0)
    (hle : (coder.decode (d'.working_bits >>> (64 - 32))).2 % 2 ^ 8 ≤ bits_left)
    (hfull : output.data.length = output.capacity) :
    aws_huffman_decode_loop coder decoder input output bits_left =
      (.shortBuffer, d', input', output) := by
  rw [aws_huffman_decode_loop, hfill]
  dsimp only
  rw [if_neg hk, if_neg (Nat.not_lt.mpr hle), if_pos hfull]

/-- Witness for C8: identity coder, one genuine byte pending, output already
full: short-buffer, accumulator unshifted. -/
theorem decode_short_buffer_outcome_witness :
    aws_huffman_decode_loop idCoder ⟨0, 0⟩ [65] ⟨[9], 1⟩ 8 =
      (.shortBuffer, ⟨65 * 2 ^ 56, 8⟩, [], ⟨[9], 1⟩) := by
  have h := decode_short_buffer_outcome idCoder ⟨0, 0⟩ ⟨65 * 2 ^ 56, 8⟩ [65] [] ⟨[9], 1⟩ 8
    (by decide) (by decide) (by decide) (by decide)
  simpa using h

/-! ## C3, C4, C5: counterexamples -/

/-- Counterexample to C3 as stated: with `eos_padding = 0x01` and a single
1-bit code written, 7 free positions remain.  The code pads them with the
*low* 7 bits of `eos_padding` (`0000001`), producing the byte `0x01`; the
claim's padding — the high-order bits of `eos_padding` taken from its most
significant bit downward, `0x01 >>> (8 - 7) = 0` — would produce the byte
`0x00`.  The call is a complete drain with a partially filled final byte, so
the claim applies, and its predicted output differs from the actual one. -/
theorem eos_padding_counterexample :
    (aws_huffman_encode oneCoder ⟨1, ⟨0, 0⟩⟩ [0] ⟨[], 1⟩).1 = .success ∧
    (aws_huffman_encode oneCoder ⟨1, ⟨0, 0⟩⟩ [0] ⟨[], 1⟩).2.2.2.data = [0 * 2 ^ 7 + 1 % 2 ^ 7] ∧
    (0 * 2 ^ 7 + 1 % 2 ^ 7 : Nat) ≠ 0 * 2 ^ 7 + 1 >>> (8 - 7) := by
  refine ⟨?_, ?_, by decide⟩ <;>
    simp [aws_huffman_encode, aws_huffman_encode_symbols, encode_write_bit_pattern,
      encode_write_loop, aws_byte_buf_write_u8, oneCoder]

/-- Counterexample to C4 as stated: encoding `[65, 255]` with a table that
gives `65` a 1-bit code and lacks `255` returns unknown-symbol, but the bit
already packed for `65` is *not* committed in the output buffer: the buffer
is still empty (and the encoder's overflow is empty too) — the bit lived in
the call's partial working byte and is discarded.  So "all bits packed for
the previously processed symbols of that call remain committed in the
output buffer" fails. -/
theorem unknown_symbol_commit_counterexample :
    (aws_huffman_encode c4Coder aws_huffman_encoder_init [65, 255] ⟨[], 10⟩).1 = .unknownSymbol ∧
    (aws_huffman_encode c4Coder aws_huffman_encoder_init [65, 255] ⟨[], 10⟩).2.2.2.data = [] ∧
    (aws_huffman_encode c4Coder aws_huffman_encoder_init [65, 255]
        ⟨[], 10⟩).2.1.overflow_bits.num_bits = 0 := by
  refine ⟨?_, ?_, ?_⟩ <;>
    simp [aws_huffman_encode, aws_huffman_encode_symbols, encode_write_bit_pattern,
      encode_write_loop, aws_huffman_encoder_init, aws_byte_buf_write_u8, c4Coder]

/-- Counterexample to C5 as stated: encoding one symbol with an 8-bit code
into a fresh 1-byte buffer consumes the whole input (remainder `[]`), fits
every produced bit within capacity (the full byte `65` is appended, and no
padding is needed), and leaves no bits of any code unwritten
(`overflow_bits.num_bits = 0`) — yet the call returns short-buffer, because
the flush that completed the final code byte found the buffer exactly full.
This refutes both "the call returns success" and "short-buffer is returned
only when the call suspends with bits of a code still unwritten". -/
theorem encode_exact_fit_counterexample :
    aws_huffman_encode idCoder aws_huffman_encoder_init [65] ⟨[], 1⟩ =
      (.shortBuffer, ⟨255, ⟨0, 0⟩⟩, [], ⟨[65], 1⟩) := by
  simp [aws_huffman_encode, aws_huffman_encode_symbols, encode_write_bit_pattern,
    encode_write_loop, aws_huffman_encoder_init, aws_byte_buf_write_u8, idCoder]

/-! ## C10: the decoder's `num_bits` stays at most 39 -/

/-- Top-up preserves `num_bits + 8 × cursor length`. -/
theorem decode_fill_sum (decoder : aws_huffman_decoder) (input : List Nat) :
    (decode_fill_working_bits decoder input).1.num_bits +
        8 * (decode_fill_working_bits decoder input).2.length =
      decoder.num_bits + 8 * input.length := by
  induction input generalizing decoder with
  | nil => rw [decode_fill_working_bits]; split <;> simp
  | cons b rest ih =>
      rw [decode_fill_working_bits]
      split
      · rw [ih]; simp; ring
      · simp

/-- Top-up only adds a byte while fewer than 32 bits are buffered, so it
never pushes `num_bits` past 39. -/
theorem decode_fill_num_bits_le (decoder : aws_huffman_decoder) (input : List Nat)
    (h : decoder.num_bits ≤ 39) :
    (decode_fill_working_bits decoder input).1.num_bits ≤ 39 := by
  induction input generalizing decoder with
  | nil => rw [decode_fill_working_bits]; split <;> simpa
  | cons b rest ih =>
      rw [decode_fill_working_bits]
      split
      · exact ih _ (by dsimp only; omega)
      · simpa

/-- After top-up, either a full window is buffered or the cursor is empty. -/
theorem decode_fill_complete (decoder : aws_huffman_decoder) (input : List Nat) :
    32 ≤ (decode_fill_working_bits decoder input).1.num_bits ∨
      (decode_fill_working_bits decoder input).2 = [] := by
  induction input generalizing decoder with
  | nil => rw [decode_fill_working_bits]; split <;> simp
  | cons b rest ih =>
      rw [decode_fill_working_bits]
      split
      · exact ih _
      · left; simpa using by omega

/-- The decode loop preserves `num_bits ≤ 39` (given the coder reads at
most 32 bits per symbol), thanks to its own `bits_read ≤ bits_left`
guard. -/
theorem decode_loop_num_bits_le (coder : aws_huffman_symbol_coder)
    (hk32 : ∀ w, (coder.decode w).2 % 2 ^ 8 ≤ 32) :
    ∀ (bits_left : Nat) (decoder : aws_huffman_decoder) (input : List Nat)
      (output : aws_byte_buf),
      bits_left = decoder.num_bits + 8 * input.length →
      decoder.num_bits ≤ 39 →
      (aws_huffman_decode_loop coder decoder input output bits_left).2.1.num_bits ≤ 39 := by
  intro bits_left
  induction bits_left using Nat.strong_induction_on with
  | _ bits_left ih =>
    intro decoder input output hbl h39
    rcases hfl : decode_fill_working_bits decoder input with ⟨d1, in1⟩
    have hsum : d1.num_bits + 8 * in1.length = decoder.num_bits + 8 * input.length := by
      have := decode_fill_sum decoder input
      rwa [hfl] at this
    have h139 : d1.num_bits ≤ 39 := by
      have := decode_fill_num_bits_le decoder input h39
      rwa [hfl] at this
    have hcomp : 32 ≤ d1.num_bits ∨ in1 = [] := by
      have := decode_fill_complete decoder input
      rwa [hfl] at this
    rw [aws_huffman_decode_loop, hfl]
    dsimp only
    have hkle : (coder.decode (d1.working_bits >>> (64 - 32))).2 % 2 ^ 8 ≤ 32 := hk32 _
    split_ifs with h1 h2 h3 h4 h5
    · exact h139
    · exact h139
    · exact h139
    · exact h139
    · -- final emit, bits_left exhausted
      have hk1 : (coder.decode (d1.working_bits >>> (64 - 32))).2 % 2 ^ 8 ≤ d1.num_bits := by
        rcases hcomp with hc | hc
        · omega
        · subst hc; simp at hsum; omega
      dsimp only
      omega
    · -- recurse with the decremented budget
      have hk1 : (coder.decode (d1.working_bits >>> (64 - 32))).2 % 2 ^ 8 ≤ d1.num_bits := by
        rcases hcomp with hc | hc
        · omega
        · subst hc; simp at hsum; omega
      refine ih _ (by omega) _ _ _ ?_ ?_
      · dsimp only; omega
      · dsimp only; omega

/-- The decoder states reachable through the public API: the freshly
initialized (equivalently, freshly reset) decoder, and the result of any
`aws_huffman_decode` call on a reachable state. -/
inductive decoderReachable (coder : aws_huffman_symbol_coder) : aws_huffman_decoder → Prop
  | init : decoderReachable coder aws_huffman_decoder_init
  | step (d : aws_huffman_decoder) (input : List Nat) (output : aws_byte_buf) :
      decoderReachable coder d →
      decoderReachable coder (aws_huffman_decode coder d input output).2.1

/-- C10: for every decoder state reachable from init/reset through
`aws_huffman_decode` calls whose coder never reports more than 32 bits
read, `num_bits` stays at most 39 (strictly tighter than the documented
0..64 range): the fill loop only adds a byte while `num_bits < 32`, and the
loop's own budget guard keeps every decrement within the current value. -/
theorem decoder_num_bits_le_39 (coder : aws_huffman_symbol_coder)
    (hk32 : ∀ w, (coder.decode w).2 % 2 ^ 8 ≤ 32)
    (d : aws_huffman_decoder) (hreach : decoderReachable coder d) :
    d.num_bits ≤ 39 := by
  induction hreach with
  | init => simp [aws_huffman_decoder_init]
  | step d input output _ ih =>
      rw [aws_huffman_decode]
      split
      · exact ih
      · exact decode_loop_num_bits_le coder hk32 _ d input output (by ring) ih

/-- Witness for C10: the freshly initialized decoder under a coder that
always reports 0 bits read. -/
theorem decoder_num_bits_le_39_witness : aws_huffman_decoder_init.num_bits ≤ 39 :=
  decoder_num_bits_le_39 zeroCoder (fun _ => by norm_num [zeroCoder])
    aws_huffman_decoder_init decoderReachable.init

/-! ## Arithmetic toolkit for bit-stream reasoning -/

theorem pow2_pos (n : Nat) : 0 < 2 ^ n := Nat.pos_pow_of_pos n (by norm_num)

/-- A left shift truncated to `m + r` bits keeps the low `r` bits of the
operand in the top positions. -/
theorem shiftLeft_mod_pow (a m r : Nat) :
    (a <<< m) % 2 ^ (r + m) = a % 2 ^ r * 2 ^ m := by
  rw [Nat.shiftLeft_eq, Nat.pow_add, Nat.mul_mod_mul_right]

theorem mul_pow_div_pow_le (x a b : Nat) (h : b ≤ a) : x * 2 ^ a / 2 ^ b = x * 2 ^ (a - b) := by
  rw [Nat.mul_div_assoc x (Nat.pow_dvd_pow 2 h), Nat.pow_div h (by norm_num)]

theorem mul_pow_div_pow_ge (x a b : Nat) (h : a ≤ b) : x * 2 ^ a / 2 ^ b = x / 2 ^ (b - a) := by
  have hb : 2 ^ b = 2 ^ a * 2 ^ (b - a) := by rw [← Nat.pow_add]; congr 1; omega
  rw [hb, Nat.mul_comm x (2 ^ a), Nat.mul_div_mul_left _ _ (pow2_pos a)]

theorem mod_pow_mod_pow (x a b : Nat) (h : b ≤ a) : x % 2 ^ a % 2 ^ b = x % 2 ^ b :=
  Nat.mod_mod_of_dvd x (Nat.pow_dvd_pow 2 h)

/-- Or-ing a value below `2 ^ p` into one whose low `p` bits are clear is
addition. -/
theorem lor_eq_add_of_disjoint (w c p : Nat) (hw : w % 2 ^ p = 0) (hc : c < 2 ^ p) :
    w ||| c = w + c := by
  have hd : w = 2 ^ p * (w / 2 ^ p) := (Nat.mul_div_cancel' (Nat.dvd_of_mod_eq_zero hw)).symm
  calc w ||| c = 2 ^ p * (w / 2 ^ p) ||| c := by rw [← hd]
    _ = 2 ^ p * (w / 2 ^ p) + c := (Nat.mul_add_lt_is_or hc _).symm
    _ = w + c := by rw [← hd]

/-- Splitting a division of a two-part value at a boundary below the split. -/
theorem split_div_pow (a b n c : Nat) (h : c ≤ n) :
    (a * 2 ^ n + b) / 2 ^ c = a * 2 ^ (n - c) + b / 2 ^ c := by
  rw [Nat.add_div_of_dvd_right ⟨a * 2 ^ (n - c), by rw [← Nat.mul_assoc, Nat.mul_comm (2 ^ c) a, Nat.mul_assoc, ← Nat.pow_add]; congr 2; omega⟩,
    mul_pow_div_pow_le _ _ _ h]

/-- Splitting a modulus of a two-part value at a boundary below the split. -/
theorem split_mod_pow (a b n c : Nat) (h : c ≤ n) :
    (a * 2 ^ n + b) % 2 ^ c = b % 2 ^ c := by
  have hd : 2 ^ c ∣ a * 2 ^ n := Dvd.dvd.mul_left (Nat.pow_dvd_pow 2 h) a
  rw [Nat.add_mod, (Nat.mod_eq_zero_of_dvd hd : a * 2 ^ n % 2 ^ c = 0), Nat.zero_add]
  exact Nat.mod_mod_of_dvd b dvd_rfl

/-! ## Byte-string lemmas -/

theorem bytesVal_lt (l : List Nat) (h : ∀ b ∈ l, b < 2 ^ 8) :
    bytesVal l < 2 ^ (8 * l.length) := by
  induction l with
  | nil => simp [bytesVal]
  | cons b rest ih =>
      have hb : b < 2 ^ 8 := h b (List.mem_cons_self b rest)
      have hr : bytesVal rest < 2 ^ (8 * rest.length) :=
        ih fun x hx => h x (List.mem_cons_of_mem b hx)
      simp only [bytesVal, List.length_cons]
      have hmul : (b + 1) * 2 ^ (8 * rest.length) ≤ 2 ^ (8 * (rest.length + 1)) := by
        calc (b + 1) * 2 ^ (8 * rest.length) ≤ 2 ^ 8 * 2 ^ (8 * rest.length) :=
              Nat.mul_le_mul_right _ hb
          _ = 2 ^ (8 * (rest.length + 1)) := by rw [← Nat.pow_add]; ring_nf
      calc b * 2 ^ (8 * rest.length) + bytesVal rest
          < b * 2 ^ (8 * rest.length) + 2 ^ (8 * rest.length) := by omega
        _ = (b + 1) * 2 ^ (8 * rest.length) := by ring
        _ ≤ 2 ^ (8 * (rest.length + 1)) := hmul

theorem bytesVal_append (l₁ l₂ : List Nat) :
    bytesVal (l₁ ++ l₂) = bytesVal l₁ * 2 ^ (8 * l₂.length) + bytesVal l₂ := by
  induction l₁ with
  | nil => simp [bytesVal]
  | cons b rest ih =>
      show bytesVal (b :: (rest ++ l₂)) = _
      simp only [bytesVal, ih, List.length_append, Nat.mul_add, Nat.pow_add]
      ring

theorem bytesVal_inj : ∀ l₁ l₂ : List Nat, l₁.length = l₂.length →
    (∀ b ∈ l₁, b < 2 ^ 8) → (∀ b ∈ l₂, b < 2 ^ 8) →
    bytesVal l₁ = bytesVal l₂ → l₁ = l₂ := by
  intro l₁
  induction l₁ with
  | nil =>
      intro l₂ hlen _ _ _
      cases l₂ with
      | nil => rfl
      | cons b r => simp at hlen
  | cons b₁ r₁ ih =>
      intro l₂ hlen h₁ h₂ hval
      cases l₂ with
      | nil => simp at hlen
      | cons b₂ r₂ =>
          have hk : r₁.length = r₂.length := by simpa using hlen
          have hr₁ : bytesVal r₁ < 2 ^ (8 * r₁.length) :=
            bytesVal_lt r₁ fun x hx => h₁ x (List.mem_cons_of_mem _ hx)
          have hr₂ : bytesVal r₂ < 2 ^ (8 * r₂.length) :=
            bytesVal_lt r₂ fun x hx => h₂ x (List.mem_cons_of_mem _ hx)
          simp only [bytesVal, hk] at hval
          have hb : b₁ = b₂ := by
            have e₁ : (b₁ * 2 ^ (8 * r₂.length) + bytesVal r₁) / 2 ^ (8 * r₂.length) = b₁ := by
              rw [Nat.mul_comm b₁, Nat.mul_add_div (pow2_pos _),
                Nat.div_eq_of_lt (hk ▸ hr₁), Nat.add_zero]
            have e₂ : (b₂ * 2 ^ (8 * r₂.length) + bytesVal r₂) / 2 ^ (8 * r₂.length) = b₂ := by
              rw [Nat.mul_comm b₂, Nat.mul_add_div (pow2_pos _),
                Nat.div_eq_of_lt hr₂, Nat.add_zero]
            rw [← e₁, ← e₂, hval]
          subst hb
          have hr : bytesVal r₁ = bytesVal r₂ := by omega
          rw [ih r₂ hk (fun x hx => h₁ x (List.mem_cons_of_mem _ hx))
            (fun x hx => h₂ x (List.mem_cons_of_mem _ hx)) hr]

/-! ## Encoder-state abstraction

`stVal`/`stLen` give the bit string committed so far (flushed bytes, then
the filled top bits of the working byte); `encInv` is the state invariant
maintained by `huffman.c` between helper steps. -/

/-- Value of the bit string committed to an encoder state. -/
def stVal (st : encoder_state) : Nat :=
  bytesVal st.output_buf.data * 2 ^ (8 - st.bit_pos) + st.working >>> st.bit_pos

/-- Length (in bits) of the bit string committed to an encoder state. -/
def stLen (st : encoder_state) : Nat :=
  8 * st.output_buf.data.length + (8 - st.bit_pos)

/-- Invariant of the in-progress encoder state: `bit_pos` counts the free
low positions of the working byte (1..8 between steps), the working byte is
a byte whose free low positions are clear, and all flushed bytes are
bytes. -/
def encInv (st : encoder_state) : Prop :=
  1 ≤ st.bit_pos ∧ st.bit_pos ≤ 8 ∧ st.working < 2 ^ 8 ∧ st.working % 2 ^ st.bit_pos = 0 ∧
    ∀ b ∈ st.output_buf.data, b < 2 ^ 8

theorem stLen_div (st : encoder_state) (hinv : encInv st) :
    st.output_buf.data.length = stLen st / 8 ∧ 8 - st.bit_pos = stLen st % 8 := by
  obtain ⟨h1, h8, -, -, -⟩ := hinv
  unfold stLen
  omega

theorem stVal_lt (st : encoder_state) (hinv : encInv st) : stVal st < 2 ^ stLen st := by
  obtain ⟨h1, h8, hw, -, hbytes⟩ := hinv
  have hD := bytesVal_lt _ hbytes
  have hwp : st.working >>> st.bit_pos < 2 ^ (8 - st.bit_pos) := by
    rw [Nat.shiftRight_eq_div_pow]
    have : st.working < 2 ^ (8 - st.bit_pos) * 2 ^ st.bit_pos := by
      rw [← Nat.pow_add]
      have : 8 - st.bit_pos + st.bit_pos = 8 := by omega
      rw [this]; exact hw
    exact Nat.div_lt_of_lt_mul (by rw [Nat.mul_comm] at this; exact this)
  unfold stVal stLen
  calc bytesVal st.output_buf.data * 2 ^ (8 - st.bit_pos) + st.working >>> st.bit_pos
      < (bytesVal st.output_buf.data + 1) * 2 ^ (8 - st.bit_pos) := by
        have hsm : (bytesVal st.output_buf.data + 1) * 2 ^ (8 - st.bit_pos) =
            bytesVal st.output_buf.data * 2 ^ (8 - st.bit_pos) + 2 ^ (8 - st.bit_pos) := by ring
        omega
    _ ≤ 2 ^ (8 * st.output_buf.data.length) * 2 ^ (8 - st.bit_pos) :=
        Nat.mul_le_mul_right _ hD
    _ = 2 ^ (8 * st.output_buf.data.length + (8 - st.bit_pos)) := by rw [← Nat.pow_add]

/-- One no-flush step of the write loop: fewer bits to write than free
positions. -/
theorem encode_write_loop_noflush (pattern nb btw : Nat) (st : encoder_state)
    (hbz : btw ≠ 0) (hlt : btw < st.bit_pos) :
    encode_write_loop pattern nb btw st =
      (.success,
        ⟨(st.working ||| ((pattern <<< ((32 - nb) + (nb - btw))) % 2 ^ 32) >>>
            (32 - st.bit_pos)) % 2 ^ 8,
          st.bit_pos - btw, st.output_buf, st.overflow_bits⟩) := by
  rw [encode_write_loop]
  rw [if_neg hbz]
  have hbfc : (if btw > st.bit_pos then st.bit_pos else btw) = btw := by
    rw [if_neg (by omega)]
  dsimp only
  rw [hbfc]
  rw [if_neg (by omega : ¬(st.bit_pos - btw = 0))]
  have : btw - btw = 0 := by omega
  rw [this, encode_write_loop]
  rw [if_pos rfl]

/-- One flushing step that fills the output buffer exactly: short-buffer,
with the remaining bits stored into overflow. -/
theorem encode_write_loop_flush_full (pattern nb btw : Nat) (st : encoder_state)
    (hbz : btw ≠ 0) (hge : st.bit_pos ≤ btw)
    (hroom : st.output_buf.data.length < st.output_buf.capacity)
    (hfull : st.output_buf.data.length + 1 = st.output_buf.capacity) :
    encode_write_loop pattern nb btw st =
      (.shortBuffer,
        ⟨0, 8,
          ⟨st.output_buf.data ++
            [(st.working ||| ((pattern <<< ((32 - nb) + (nb - btw))) % 2 ^ 32) >>>
                (32 - st.bit_pos)) % 2 ^ 8], st.output_buf.capacity⟩,
          if btw - st.bit_pos ≠ 0 then
            ⟨((pattern <<< ((32 - nb) + (nb - btw) + st.bit_pos)) % 2 ^ 32) >>>
                (32 - (btw - st.bit_pos)), btw - st.bit_pos⟩
          else ⟨st.overflow_bits.pattern, btw - st.bit_pos⟩⟩) := by
  rw [encode_write_loop]
  rw [if_neg hbz]
  have hbfc : (if btw > st.bit_pos then st.bit_pos else btw) = st.bit_pos := by
    split <;> omega
  dsimp only
  rw [hbfc]
  rw [if_pos (by omega : st.bit_pos - st.bit_pos = 0)]
  rw [aws_byte_buf_write_u8, if_pos hroom]
  dsimp only
  rw [if_pos (by simpa using hfull)]

/-- One flushing step with room left: the loop continues from a fresh
working byte. -/
theorem encode_write_loop_flush_cont (pattern nb btw : Nat) (st : encoder_state)
    (hbz : btw ≠ 0) (hge : st.bit_pos ≤ btw)
    (hroom : st.output_buf.data.length < st.output_buf.capacity)
    (hnfull : st.output_buf.data.length + 1 ≠ st.output_buf.capacity) :
    encode_write_loop pattern nb btw st =
      encode_write_loop pattern nb (btw - st.bit_pos)
        ⟨0, 8,
          ⟨st.output_buf.data ++
            [(st.working ||| ((pattern <<< ((32 - nb) + (nb - btw))) % 2 ^ 32) >>>
                (32 - st.bit_pos)) % 2 ^ 8], st.output_buf.capacity⟩,
          st.overflow_bits⟩ := by
  conv_lhs => rw [encode_write_loop]
  rw [if_neg hbz]
  have hbfc : (if btw > st.bit_pos then st.bit_pos else btw) = st.bit_pos := by
    split <;> omega
  dsimp only
  rw [hbfc]
  rw [if_pos (by omega : st.bit_pos - st.bit_pos = 0)]
  rw [aws_byte_buf_write_u8, if_pos hroom]
  dsimp only
  rw [if_neg (by simpa using hnfull)]

/-- The loop with nothing to write returns success immediately. -/
theorem encode_write_loop_zero (pattern nb : Nat) (st : encoder_state) :
    encode_write_loop pattern nb 0 st = (.success, st) := by
  rw [encode_write_loop]
  rw [if_pos rfl]

theorem shiftLeft_mod_pow' (a m k : Nat) (h : m ≤ k) :
    (a <<< m) % 2 ^ k = a % 2 ^ (k - m) * 2 ^ m := by
  obtain ⟨r, rfl⟩ : ∃ r, k = r + m := ⟨k - m, by omega⟩
  rw [shiftLeft_mod_pow, Nat.add_sub_cancel]

/-- Value of the bit chunk `huffman.c` merges into the working byte: the
remaining `btw` code bits, positioned for a byte with `p` free slots. -/
theorem chunk_val (pattern btw p : Nat) (hbtw : btw ≤ 32) (hp : p ≤ 32) :
    ((pattern <<< (32 - btw)) % 2 ^ 32) >>> (32 - p) =
      if btw ≤ p then pattern % 2 ^ btw * 2 ^ (p - btw)
      else (pattern % 2 ^ btw) >>> (btw - p) := by
  rw [shiftLeft_mod_pow' _ _ _ (by omega)]
  have h32 : 32 - (32 - btw) = btw := by omega
  rw [h32]
  split
  · next h =>
      rw [Nat.shiftRight_eq_div_pow, mul_pow_div_pow_le _ _ _ (by omega)]
      have he : 32 - btw - (32 - p) = p - btw := by omega
      rw [he]
  · next h =>
      rw [Nat.shiftRight_eq_div_pow, mul_pow_div_pow_ge _ _ _ (by omega),
        Nat.shiftRight_eq_div_pow]
      have he : 32 - p - (32 - btw) = btw - p := by omega
      rw [he]

/-- A working byte with `p` clear low positions plus a `p`-bit chunk is
still a byte. -/
theorem working_add_lt (w c p : Nat) (hp : p ≤ 8) (hw : w < 2 ^ 8)
    (hwz : w % 2 ^ p = 0) (hc : c < 2 ^ p) : w + c < 2 ^ 8 := by
  have hq : w = 2 ^ p * (w / 2 ^ p) := (Nat.mul_div_cancel' (Nat.dvd_of_mod_eq_zero hwz)).symm
  have h8 : (2 : Nat) ^ 8 = 2 ^ p * 2 ^ (8 - p) := by rw [← Nat.pow_add]; congr 1; omega
  have hqlt : w / 2 ^ p < 2 ^ (8 - p) := by
    apply Nat.div_lt_of_lt_mul
    rw [← h8]
    exact hw
  have : w ≤ 2 ^ p * (2 ^ (8 - p) - 1) := by
    rw [hq]
    exact Nat.mul_le_mul_left _ (by omega)
  have hple : 2 ^ p * (2 ^ (8 - p) - 1) + 2 ^ p = 2 ^ 8 := by
    have hY := pow2_pos (8 - p)
    calc 2 ^ p * (2 ^ (8 - p) - 1) + 2 ^ p = 2 ^ p * (2 ^ (8 - p) - 1 + 1) := by ring
      _ = 2 ^ p * 2 ^ (8 - p) := by congr 1; omega
      _ = 2 ^ 8 := h8.symm
  omega

/-- Full characterization of `encode_write_bit_pattern`'s loop from a valid
in-progress state: if the freshly completed code bytes stay strictly below
capacity the loop succeeds, appending the `btw` low bits of `pattern` to the
committed bit string; otherwise it stops with short-buffer the moment the
buffer fills, having committed exactly the first `8·capacity − stLen st`
of those bits and stored the remaining ones (right-justified) in
overflow. -/
theorem encode_write_loop_spec (pattern nb : Nat) (hnb : nb ≤ 32) :
    ∀ btw st, btw ≤ nb → encInv st →
      st.output_buf.data.length < st.output_buf.capacity →
      ∃ st', encode_write_loop pattern nb btw st =
          ((if (stLen st + btw) / 8 < st.output_buf.capacity then .success else .shortBuffer),
            st') ∧
        encInv st' ∧ st'.output_buf.capacity = st.output_buf.capacity ∧
        ((stLen st + btw) / 8 < st.output_buf.capacity →
          st'.overflow_bits = st.overflow_bits ∧
          stVal st' = stVal st * 2 ^ btw + pattern % 2 ^ btw ∧
          stLen st' = stLen st + btw) ∧
        (st.output_buf.capacity ≤ (stLen st + btw) / 8 →
          st'.bit_pos = 8 ∧ st'.working = 0 ∧
          st'.output_buf.data.length = st.output_buf.capacity ∧
          bytesVal st'.output_buf.data =
            stVal st * 2 ^ (8 * st.output_buf.capacity - stLen st) +
              (pattern % 2 ^ btw) >>> (btw - (8 * st.output_buf.capacity - stLen st)) ∧
          st'.overflow_bits.num_bits = btw - (8 * st.output_buf.capacity - stLen st) ∧
          st'.overflow_bits.pattern % 2 ^ (btw - (8 * st.output_buf.capacity - stLen st)) =
            pattern % 2 ^ (btw - (8 * st.output_buf.capacity - stLen st))) := by
  intro btw
  induction btw using Nat.strong_induction_on with
  | _ btw ih =>
    intro st hbtw hinv hroom
    obtain ⟨hp1, hp8, hwlt, hwz, hbytes⟩ := hinv
    obtain ⟨hlen8, hmod8⟩ := stLen_div st ⟨hp1, hp8, hwlt, hwz, hbytes⟩
    by_cases hbz : btw = 0
    · subst hbz
      refine ⟨st, ?_, ⟨hp1, hp8, hwlt, hwz, hbytes⟩, rfl, ?_, ?_⟩
      · rw [encode_write_loop_zero, if_pos (by omega)]
      · intro _
        refine ⟨rfl, ?_, by omega⟩
        simp [Nat.pow_zero, Nat.mod_one]
      · intro habs
        omega
    · -- btw ≠ 0
      have hstLen : stLen st = 8 * st.output_buf.data.length + (8 - st.bit_pos) := rfl
      have hcut : 32 - nb + (nb - btw) = 32 - btw := by omega
      have hxlt : pattern % 2 ^ btw < 2 ^ btw := Nat.mod_lt _ (pow2_pos _)
      by_cases hflush : st.bit_pos ≤ btw
      · -- the write fills the working byte: flush
        have hchunk : ((pattern <<< (32 - btw)) % 2 ^ 32) >>> (32 - st.bit_pos) =
            (pattern % 2 ^ btw) >>> (btw - st.bit_pos) := by
          rw [chunk_val pattern btw st.bit_pos (by omega) (by omega)]
          split
          · next h =>
              rw [show btw - st.bit_pos = 0 by omega, Nat.shiftRight_zero,
                show st.bit_pos - btw = 0 by omega, Nat.pow_zero, Nat.mul_one]
          · rfl
        have hxlt' : pattern % 2 ^ btw < 2 ^ btw := Nat.mod_lt _ (pow2_pos _)
        have hclt : (pattern % 2 ^ btw) >>> (btw - st.bit_pos) < 2 ^ st.bit_pos := by
          rw [Nat.shiftRight_eq_div_pow]
          apply Nat.div_lt_of_lt_mul
          calc pattern % 2 ^ btw < 2 ^ btw := hxlt'
            _ = 2 ^ (btw - st.bit_pos) * 2 ^ st.bit_pos := by
                rw [← Nat.pow_add]; congr 1; omega
        have hsumlt : st.working + (pattern % 2 ^ btw) >>> (btw - st.bit_pos) < 2 ^ 8 :=
          working_add_lt _ _ _ hp8 hwlt hwz hclt
        have hsv : stVal st * 2 ^ st.bit_pos = bytesVal st.output_buf.data * 2 ^ 8 + st.working := by
          unfold stVal
          rw [Nat.add_mul, Nat.mul_assoc, ← Nat.pow_add, show 8 - st.bit_pos + st.bit_pos = 8 by omega,
            Nat.shiftRight_eq_div_pow, Nat.div_mul_cancel (Nat.dvd_of_mod_eq_zero hwz)]
        have hwbytes : ∀ b ∈ st.output_buf.data ++
            [(st.working + (pattern % 2 ^ btw) >>> (btw - st.bit_pos)) % 2 ^ 8], b < 2 ^ 8 := by
          intro b hb
          rcases List.mem_append.mp hb with hb | hb
          · exact hbytes b hb
          · rw [List.mem_singleton.mp hb]
            exact Nat.mod_lt _ (pow2_pos _)
        have hbyteval : bytesVal (st.output_buf.data ++
              [(st.working + (pattern % 2 ^ btw) >>> (btw - st.bit_pos)) % 2 ^ 8]) =
            stVal st * 2 ^ st.bit_pos + (pattern % 2 ^ btw) >>> (btw - st.bit_pos) := by
          rw [bytesVal_append, Nat.mod_eq_of_lt hsumlt, hsv]
          simp [bytesVal]
          ring
        by_cases hfull : st.output_buf.data.length + 1 = st.output_buf.capacity
        · -- the flush fills the buffer: short-buffer
          have heq := encode_write_loop_flush_full pattern nb btw st hbz hflush hroom hfull
          rw [hcut, hchunk, lor_eq_add_of_disjoint _ _ _ hwz hclt] at heq
          have hk : 8 * st.output_buf.capacity - stLen st = st.bit_pos := by
            rw [hstLen]; omega
          refine ⟨⟨0, 8,
              ⟨st.output_buf.data ++
                [(st.working + (pattern % 2 ^ btw) >>> (btw - st.bit_pos)) % 2 ^ 8],
                st.output_buf.capacity⟩,
              if btw - st.bit_pos ≠ 0 then
                ⟨((pattern <<< (32 - btw + st.bit_pos)) % 2 ^ 32) >>> (32 - (btw - st.bit_pos)),
                  btw - st.bit_pos⟩
              else ⟨st.overflow_bits.pattern, btw - st.bit_pos⟩⟩, ?_, ?_, rfl, ?_, ?_⟩
          · rw [if_neg (show ¬((stLen st + btw) / 8 < st.output_buf.capacity) by
              rw [hstLen]; omega)]
            exact heq
          · refine ⟨?_, ?_, ?_, ?_, ?_⟩ <;> dsimp only
            · omega
            · omega
            · exact pow2_pos 8
            · exact Nat.zero_mod _
            · exact hwbytes
          · intro hcond
            exfalso
            rw [hstLen] at hcond
            omega
          · intro _
            refine ⟨rfl, rfl, ?_, ?_, ?_, ?_⟩ <;> dsimp only
            · rw [List.length_append, List.length_cons, List.length_nil]
              omega
            · rw [hbyteval, hk]
            · rw [hk]
              split <;> rfl
            · rw [hk]
              by_cases hrz : btw - st.bit_pos ≠ 0
              · rw [if_pos hrz]
                dsimp only
                rw [show 32 - btw + st.bit_pos = 32 - (btw - st.bit_pos) by omega]
                rw [chunk_val pattern (btw - st.bit_pos) (btw - st.bit_pos) (by omega) (by omega),
                  if_pos (le_refl _), Nat.sub_self, Nat.pow_zero, Nat.mul_one]
                rw [mod_pow_mod_pow _ _ _ (le_refl _)]
              · rw [if_neg hrz]
                push_neg at hrz
                rw [hrz]
                simp [Nat.mod_one]
        · -- the flush leaves room: continue with a fresh working byte
          have heq := encode_write_loop_flush_cont pattern nb btw st hbz hflush hroom hfull
          rw [hcut, hchunk, lor_eq_add_of_disjoint _ _ _ hwz hclt] at heq
          have hlen2 : (st.output_buf.data ++
              [(st.working + (pattern % 2 ^ btw) >>> (btw - st.bit_pos)) % 2 ^ 8]).length =
              st.output_buf.data.length + 1 := by
            rw [List.length_append, List.length_cons, List.length_nil]
          have hinv2 : encInv ⟨0, 8,
              ⟨st.output_buf.data ++
                [(st.working + (pattern % 2 ^ btw) >>> (btw - st.bit_pos)) % 2 ^ 8],
                st.output_buf.capacity⟩, st.overflow_bits⟩ := by
            refine ⟨?_, ?_, ?_, ?_, ?_⟩ <;> dsimp only
            · omega
            · omega
            · exact pow2_pos 8
            · exact Nat.zero_mod _
            · exact hwbytes
          have hroom2 : (⟨0, 8,
              ⟨st.output_buf.data ++
                [(st.working + (pattern % 2 ^ btw) >>> (btw - st.bit_pos)) % 2 ^ 8],
                st.output_buf.capacity⟩, st.overflow_bits⟩ :
                  encoder_state).output_buf.data.length <
              (⟨0, 8,
              ⟨st.output_buf.data ++
                [(st.working + (pattern % 2 ^ btw) >>> (btw - st.bit_pos)) % 2 ^ 8],
                st.output_buf.capacity⟩, st.overflow_bits⟩ :
                  encoder_state).output_buf.capacity := by
            dsimp only
            rw [hlen2]
            omega
          obtain ⟨st', heq', hinv', hcap', hsucc', hshort'⟩ :=
            ih (btw - st.bit_pos) (by omega) _ (by omega) hinv2 hroom2
          rw [heq'] at heq
          have hsl2 : stLen ⟨0, 8,
              ⟨st.output_buf.data ++
                [(st.working + (pattern % 2 ^ btw) >>> (btw - st.bit_pos)) % 2 ^ 8],
                st.output_buf.capacity⟩, st.overflow_bits⟩ = stLen st + st.bit_pos := by
            unfold stLen
            dsimp only
            rw [hlen2]
            omega
          have hsv2 : stVal ⟨0, 8,
              ⟨st.output_buf.data ++
                [(st.working + (pattern % 2 ^ btw) >>> (btw - st.bit_pos)) % 2 ^ 8],
                st.output_buf.capacity⟩, st.overflow_bits⟩ =
              stVal st * 2 ^ st.bit_pos + (pattern % 2 ^ btw) >>> (btw - st.bit_pos) := by
            unfold stVal
            dsimp only
            rw [hbyteval, Nat.sub_self, Nat.pow_zero, Nat.mul_one, Nat.zero_shiftRight,
              Nat.add_zero]
            rfl
          dsimp only at heq hcap' hsucc' hshort'
          rw [hsl2, hsv2] at hsucc' hshort'
          rw [hsl2] at heq
          rw [show stLen st + st.bit_pos + (btw - st.bit_pos) = stLen st + btw by omega]
            at heq hsucc' hshort'
          refine ⟨st', heq, hinv', hcap', ?_, ?_⟩
          · -- the whole write fits
            intro hcond
            obtain ⟨hov, hsv', hsl'⟩ := hsucc' hcond
            refine ⟨hov, ?_, by omega⟩
            rw [hsv', (mod_pow_mod_pow pattern btw (btw - st.bit_pos) (by omega)).symm,
              Nat.add_mul, Nat.mul_assoc, ← Nat.pow_add,
              show st.bit_pos + (btw - st.bit_pos) = btw by omega,
              Nat.shiftRight_eq_div_pow]
            have hdm : pattern % 2 ^ btw / 2 ^ (btw - st.bit_pos) * 2 ^ (btw - st.bit_pos) +
                pattern % 2 ^ btw % 2 ^ (btw - st.bit_pos) = pattern % 2 ^ btw := by
              rw [Nat.mul_comm]
              exact Nat.div_add_mod _ _
            omega
          · -- the buffer filled during the continuation
            intro habs
            obtain ⟨hbp', hw0', hlen', hbv', hovn', hovp'⟩ := hshort' habs
            have hkp : st.bit_pos ≤ 8 * st.output_buf.capacity - stLen st := by
              rw [hstLen]; omega
            have hkb : 8 * st.output_buf.capacity - stLen st ≤ btw := by
              have h8c : 8 * st.output_buf.capacity ≤ stLen st + btw := by omega
              omega
            refine ⟨hbp', hw0', hlen', ?_, ?_, ?_⟩
            · rw [hbv', (mod_pow_mod_pow pattern btw (btw - st.bit_pos) (by omega)).symm,
                Nat.shiftRight_eq_div_pow, Nat.shiftRight_eq_div_pow,
                Nat.shiftRight_eq_div_pow]
              have hxsplit : pattern % 2 ^ btw / 2 ^ (btw - st.bit_pos) *
                    2 ^ (btw - st.bit_pos - (btw - (8 * st.output_buf.capacity - stLen st))) +
                  pattern % 2 ^ btw % 2 ^ (btw - st.bit_pos) /
                    2 ^ (btw - (8 * st.output_buf.capacity - stLen st)) =
                  pattern % 2 ^ btw / 2 ^ (btw - (8 * st.output_buf.capacity - stLen st)) := by
                conv_rhs =>
                  rw [show pattern % 2 ^ btw =
                    pattern % 2 ^ btw / 2 ^ (btw - st.bit_pos) * 2 ^ (btw - st.bit_pos) +
                      pattern % 2 ^ btw % 2 ^ (btw - st.bit_pos) by
                    rw [Nat.mul_comm]; exact (Nat.div_add_mod _ _).symm]
                rw [split_div_pow _ _ _ _ (by omega)]
              rw [show btw - st.bit_pos - (btw - (8 * st.output_buf.capacity - stLen st)) =
                  8 * st.output_buf.capacity - stLen st - st.bit_pos by omega] at hxsplit
              rw [show 8 * st.output_buf.capacity - (stLen st + st.bit_pos) =
                  8 * st.output_buf.capacity - stLen st - st.bit_pos by omega,
                show btw - st.bit_pos - (8 * st.output_buf.capacity - stLen st - st.bit_pos) =
                  btw - (8 * st.output_buf.capacity - stLen st) by omega,
                Nat.add_mul, Nat.mul_assoc, ← Nat.pow_add,
                show st.bit_pos + (8 * st.output_buf.capacity - stLen st - st.bit_pos) =
                  8 * st.output_buf.capacity - stLen st by omega]
              omega
            · rw [hovn']
              omega
            · rw [show btw - (8 * st.output_buf.capacity - stLen st) =
                btw - st.bit_pos - (8 * st.output_buf.capacity - (stLen st + st.bit_pos)) by omega]
              exact hovp'
      · -- no flush: btw < bit_pos, the code fits in the working byte
        push_neg at hflush
        have heq := encode_write_loop_noflush pattern nb btw st hbz hflush
        rw [hcut, chunk_val pattern btw st.bit_pos (by omega) (by omega),
          if_pos (by omega : btw ≤ st.bit_pos)] at heq
        have hclt : pattern % 2 ^ btw * 2 ^ (st.bit_pos - btw) < 2 ^ st.bit_pos := by
          calc pattern % 2 ^ btw * 2 ^ (st.bit_pos - btw)
              < 2 ^ btw * 2 ^ (st.bit_pos - btw) := (Nat.mul_lt_mul_right (pow2_pos _)).mpr hxlt
            _ = 2 ^ st.bit_pos := by rw [← Nat.pow_add]; congr 1; omega
        have hsumlt : st.working + pattern % 2 ^ btw * 2 ^ (st.bit_pos - btw) < 2 ^ 8 :=
          working_add_lt _ _ _ hp8 hwlt hwz hclt
        rw [lor_eq_add_of_disjoint _ _ _ hwz hclt, Nat.mod_eq_of_lt hsumlt] at heq
        have hdvd : 2 ^ (st.bit_pos - btw) ∣ st.working :=
          dvd_trans (Nat.pow_dvd_pow 2 (by omega)) (Nat.dvd_of_mod_eq_zero hwz)
        refine ⟨⟨st.working + pattern % 2 ^ btw * 2 ^ (st.bit_pos - btw), st.bit_pos - btw,
            st.output_buf, st.overflow_bits⟩, ?_, ?_, rfl, ?_, ?_⟩
        · rw [if_pos (show (stLen st + btw) / 8 < st.output_buf.capacity by rw [hstLen]; omega)]
          exact heq
        · refine ⟨?_, ?_, ?_, ?_, ?_⟩ <;> dsimp only
          · omega
          · omega
          · exact hsumlt
          · rw [Nat.add_mul_mod_self_right]
            exact Nat.mod_eq_zero_of_dvd hdvd
          · exact hbytes
        · intro _
          refine ⟨rfl, ?_, by unfold stLen; dsimp only; omega⟩
          unfold stVal
          dsimp only
          rw [Nat.shiftRight_eq_div_pow, Nat.shiftRight_eq_div_pow,
            Nat.add_div_of_dvd_right hdvd, mul_pow_div_pow_le _ _ _ (le_refl _),
            Nat.sub_self, Nat.pow_zero, Nat.mul_one]
          have hq : st.working = 2 ^ st.bit_pos * (st.working / 2 ^ st.bit_pos) :=
            (Nat.mul_div_cancel' (Nat.dvd_of_mod_eq_zero hwz)).symm
          have hwdiv : st.working / 2 ^ (st.bit_pos - btw) =
              st.working / 2 ^ st.bit_pos * 2 ^ btw := by
            calc st.working / 2 ^ (st.bit_pos - btw)
                = 2 ^ st.bit_pos * (st.working / 2 ^ st.bit_pos) / 2 ^ (st.bit_pos - btw) := by
                  rw [← hq]
              _ = st.working / 2 ^ st.bit_pos * 2 ^ st.bit_pos / 2 ^ (st.bit_pos - btw) := by
                  rw [Nat.mul_comm]
              _ = st.working / 2 ^ st.bit_pos * 2 ^ (st.bit_pos - (st.bit_pos - btw)) :=
                  mul_pow_div_pow_le _ _ _ (by omega)
              _ = st.working / 2 ^ st.bit_pos * 2 ^ btw := by
                  rw [show st.bit_pos - (st.bit_pos - btw) = btw by omega]
          rw [hwdiv, show 8 - (st.bit_pos - btw) = (8 - st.bit_pos) + btw by omega,
            Nat.pow_add]
          ring
        · intro habs
          exfalso
          rw [hstLen] at habs
          omega

theorem codeSeqVal_lt (coder : aws_huffman_symbol_coder) (l : List Nat) :
    codeSeqVal coder l < 2 ^ codeSeqLen coder l := by
  induction l with
  | nil => simp [codeSeqVal, codeSeqLen]
  | cons s rest ih =>
      simp only [codeSeqVal, codeSeqLen]
      have hx : (coder.encode s).pattern % 2 ^ (coder.encode s).num_bits <
          2 ^ (coder.encode s).num_bits := Nat.mod_lt _ (pow2_pos _)
      have hmul : ((coder.encode s).pattern % 2 ^ (coder.encode s).num_bits + 1) *
          2 ^ codeSeqLen coder rest ≤
          2 ^ ((coder.encode s).num_bits + codeSeqLen coder rest) := by
        calc ((coder.encode s).pattern % 2 ^ (coder.encode s).num_bits + 1) *
              2 ^ codeSeqLen coder rest
            ≤ 2 ^ (coder.encode s).num_bits * 2 ^ codeSeqLen coder rest :=
              Nat.mul_le_mul_right _ hx
          _ = 2 ^ ((coder.encode s).num_bits + codeSeqLen coder rest) := by
              rw [← Nat.pow_add]
      have hexp : ((coder.encode s).pattern % 2 ^ (coder.encode s).num_bits + 1) *
          2 ^ codeSeqLen coder rest =
          (coder.encode s).pattern % 2 ^ (coder.encode s).num_bits *
            2 ^ codeSeqLen coder rest + 2 ^ codeSeqLen coder rest := by ring
      omega

/-- `encode_write_bit_pattern` on a 1..32-bit code behaves exactly like its
loop on the full code. -/
theorem encode_write_bit_pattern_eq (st : encoder_state) (c : aws_huffman_code)
    (h1 : c.num_bits ≠ 0) :
    encode_write_bit_pattern st c = encode_write_loop c.pattern c.num_bits c.num_bits st := by
  rw [encode_write_bit_pattern, if_neg h1]

theorem mulpow_add_lt (a b m n : Nat) (ha : a < 2 ^ m) (hb : b < 2 ^ n) :
    a * 2 ^ n + b < 2 ^ (m + n) := by
  have h1 : a * 2 ^ n + b < (a + 1) * 2 ^ n := by
    have : (a + 1) * 2 ^ n = a * 2 ^ n + 2 ^ n := by ring
    omega
  have h2 : (a + 1) * 2 ^ n ≤ 2 ^ m * 2 ^ n := Nat.mul_le_mul_right _ ha
  rw [← Nat.pow_add] at h2
  omega

/-- Characterization of the symbol-writing loop of `aws_huffman_encode`: on
symbols whose codes are all 1..32 bits, it either consumes the whole cursor
(success), appending all their code bits, or stops with short-buffer having
flushed exactly `8 × capacity` bits of the combined stream, with the rest of
the in-flight code in overflow and the unread symbols returned. -/
theorem aws_huffman_encode_symbols_spec (coder : aws_huffman_symbol_coder) :
    ∀ (input : List Nat) (st : encoder_state),
      (∀ s ∈ input, 1 ≤ (coder.encode s).num_bits ∧ (coder.encode s).num_bits ≤ 32) →
      encInv st → st.output_buf.data.length < st.output_buf.capacity →
      (((stLen st + codeSeqLen coder input) / 8 < st.output_buf.capacity →
         ∃ st', aws_huffman_encode_symbols coder input st = (.success, st', []) ∧
           encInv st' ∧ st'.output_buf.capacity = st.output_buf.capacity ∧
           st'.output_buf.data.length < st.output_buf.capacity ∧
           st'.overflow_bits = st.overflow_bits ∧
           stVal st' = stVal st * 2 ^ codeSeqLen coder input + codeSeqVal coder input ∧
           stLen st' = stLen st + codeSeqLen coder input) ∧
       (st.output_buf.capacity ≤ (stLen st + codeSeqLen coder input) / 8 →
         ∃ st' j, j ≤ input.length ∧
           aws_huffman_encode_symbols coder input st = (.shortBuffer, st', input.drop j) ∧
           encInv st' ∧ st'.output_buf.capacity = st.output_buf.capacity ∧
           st'.bit_pos = 8 ∧ st'.working = 0 ∧
           st'.output_buf.data.length = st.output_buf.capacity ∧
           bytesVal st'.output_buf.data =
             (stVal st * 2 ^ codeSeqLen coder input + codeSeqVal coder input) >>>
               (stLen st + codeSeqLen coder input - 8 * st.output_buf.capacity) ∧
           st'.overflow_bits.num_bits + codeSeqLen coder (input.drop j) =
             stLen st + codeSeqLen coder input - 8 * st.output_buf.capacity ∧
           st'.overflow_bits.num_bits ≤ 31 ∧
           st'.overflow_bits.pattern % 2 ^ st'.overflow_bits.num_bits *
               2 ^ codeSeqLen coder (input.drop j) + codeSeqVal coder (input.drop j) =
             (stVal st * 2 ^ codeSeqLen coder input + codeSeqVal coder input) %
               2 ^ (stLen st + codeSeqLen coder input - 8 * st.output_buf.capacity))) := by
  intro input
  induction input with
  | nil =>
      intro st hcodes hinv hroom
      obtain ⟨hd1, hd2⟩ := stLen_div st hinv
      constructor
      · intro _
        exact ⟨st, rfl, hinv, rfl, hroom, rfl, by simp [codeSeqLen, codeSeqVal], by
          simp [codeSeqLen]⟩
      · intro habs
        exfalso
        simp only [codeSeqLen, Nat.add_zero] at habs
        omega
  | cons s rest ih =>
      intro st hcodes hinv hroom
      obtain ⟨hnb1, hnb32⟩ := hcodes s (List.mem_cons_self s rest)
      have hcodes' : ∀ x ∈ rest, 1 ≤ (coder.encode x).num_bits ∧ (coder.encode x).num_bits ≤ 32 :=
        fun x hx => hcodes x (List.mem_cons_of_mem s hx)
      obtain ⟨st₁, hw, hinv₁, hcap₁, hsucc₁, hshort₁⟩ :=
        encode_write_loop_spec (coder.encode s).pattern (coder.encode s).num_bits hnb32
          (coder.encode s).num_bits st (le_refl _) hinv hroom
      rw [← encode_write_bit_pattern_eq st (coder.encode s) (by omega)] at hw
      by_cases hfit : (stLen st + (coder.encode s).num_bits) / 8 < st.output_buf.capacity
      · -- the head code fits: continue
        rw [if_pos hfit] at hw
        obtain ⟨hov₁, hval₁, hlen₁⟩ := hsucc₁ hfit
        have hroom₁ : st₁.output_buf.data.length < st₁.output_buf.capacity := by
          obtain ⟨he1, he2⟩ := stLen_div st₁ hinv₁
          rw [hcap₁]
          omega
        obtain ⟨ihsucc, ihshort⟩ := ih st₁ hcodes' hinv₁ hroom₁
        have hstep : aws_huffman_encode_symbols coder (s :: rest) st =
            aws_huffman_encode_symbols coder rest st₁ := by
          rw [aws_huffman_encode_symbols, hw]
        constructor
        · intro hcond
          have hcond' : (stLen st₁ + codeSeqLen coder rest) / 8 < st₁.output_buf.capacity := by
            rw [hlen₁, hcap₁]
            simp only [codeSeqLen] at hcond
            rw [show stLen st + (coder.encode s).num_bits + codeSeqLen coder rest =
              stLen st + ((coder.encode s).num_bits + codeSeqLen coder rest) by omega]
            exact hcond
          obtain ⟨st', heq', hinv', hcap', hroom', hov', hval', hlen'⟩ := ihsucc hcond'
          refine ⟨st', by rw [hstep, heq'], hinv', by rw [hcap', hcap₁],
            by rw [← hcap₁]; exact hroom', by rw [hov', hov₁], ?_, ?_⟩
          · rw [hval', hval₁]
            simp only [codeSeqVal, codeSeqLen]
            rw [Nat.add_mul, Nat.mul_assoc, ← Nat.pow_add]
            ring
          · rw [hlen', hlen₁]
            simp only [codeSeqLen]
            omega
        · intro habs
          have habs' : st₁.output_buf.capacity ≤ (stLen st₁ + codeSeqLen coder rest) / 8 := by
            rw [hlen₁, hcap₁]
            simp only [codeSeqLen] at habs
            rw [show stLen st + (coder.encode s).num_bits + codeSeqLen coder rest =
              stLen st + ((coder.encode s).num_bits + codeSeqLen coder rest) by omega]
            exact habs
          obtain ⟨st', j, hj, heq', hinv', hcap', hbp', hw0', hflen', hbv', hsum', hle31', hrest'⟩ :=
            ihshort habs'
          refine ⟨st', j + 1, by simpa using hj, by rw [hstep]; simpa using heq', hinv',
            by rw [hcap', hcap₁], hbp', hw0', by rw [hflen', hcap₁], ?_, ?_, hle31', ?_⟩
          · -- flushed bytes value
            rw [hbv', hval₁, hlen₁, hcap₁]
            simp only [codeSeqVal, codeSeqLen]
            rw [show stVal st * 2 ^ ((coder.encode s).num_bits + codeSeqLen coder rest) +
                ((coder.encode s).pattern % 2 ^ (coder.encode s).num_bits *
                  2 ^ codeSeqLen coder rest + codeSeqVal coder rest) =
              (stVal st * 2 ^ (coder.encode s).num_bits +
                  (coder.encode s).pattern % 2 ^ (coder.encode s).num_bits) *
                2 ^ codeSeqLen coder rest + codeSeqVal coder rest by
              rw [Nat.pow_add, Nat.add_mul, Nat.mul_assoc]; ring]
            rw [show stLen st + (coder.encode s).num_bits + codeSeqLen coder rest -
                8 * st.output_buf.capacity =
              stLen st + ((coder.encode s).num_bits + codeSeqLen coder rest) -
                8 * st.output_buf.capacity by omega]
          · -- remaining length
            rw [List.drop_succ_cons, hsum', hlen₁, hcap₁]
            simp only [codeSeqLen]
            omega
          · -- remaining value
            rw [List.drop_succ_cons, hrest', hval₁, hlen₁, hcap₁]
            simp only [codeSeqVal, codeSeqLen]
            rw [show stVal st * 2 ^ ((coder.encode s).num_bits + codeSeqLen coder rest) +
                ((coder.encode s).pattern % 2 ^ (coder.encode s).num_bits *
                  2 ^ codeSeqLen coder rest + codeSeqVal coder rest) =
              (stVal st * 2 ^ (coder.encode s).num_bits +
                  (coder.encode s).pattern % 2 ^ (coder.encode s).num_bits) *
                2 ^ codeSeqLen coder rest + codeSeqVal coder rest by
              rw [Nat.pow_add, Nat.add_mul, Nat.mul_assoc]; ring]
            rw [show stLen st + (coder.encode s).num_bits + codeSeqLen coder rest -
                8 * st.output_buf.capacity =
              stLen st + ((coder.encode s).num_bits + codeSeqLen coder rest) -
                8 * st.output_buf.capacity by omega]
      · -- the head code itself exhausts the buffer
        push_neg at hfit
        rw [if_neg (by omega)] at hw
        obtain ⟨hbp₁, hw0₁, hflen₁, hbv₁, hovn₁, hovp₁⟩ := hshort₁ hfit
        have hstep : aws_huffman_encode_symbols coder (s :: rest) st =
            (.shortBuffer, st₁, rest) := by
          rw [aws_huffman_encode_symbols, hw]
        constructor
        · intro hcond
          exfalso
          simp only [codeSeqLen] at hcond
          obtain ⟨hd1, hd2⟩ := stLen_div st hinv
          omega
        · intro _
          have hk1 : 1 ≤ 8 * st.output_buf.capacity - stLen st := by
            obtain ⟨hd1, hd2⟩ := stLen_div st hinv
            omega
          have hkle : 8 * st.output_buf.capacity - stLen st ≤ (coder.encode s).num_bits := by
            omega
          have hVrest := codeSeqVal_lt coder rest
          have hx : (coder.encode s).pattern % 2 ^ (coder.encode s).num_bits <
              2 ^ (coder.encode s).num_bits := Nat.mod_lt _ (pow2_pos _)
          have hfull : stVal st * 2 ^ codeSeqLen coder (s :: rest) + codeSeqVal coder (s :: rest) =
              (stVal st * 2 ^ (coder.encode s).num_bits +
                  (coder.encode s).pattern % 2 ^ (coder.encode s).num_bits) *
                2 ^ codeSeqLen coder rest + codeSeqVal coder rest := by
            simp only [codeSeqVal, codeSeqLen]
            rw [Nat.pow_add, Nat.add_mul, Nat.mul_assoc]
            ring
          have hLtot : stLen st + codeSeqLen coder (s :: rest) - 8 * st.output_buf.capacity =
              codeSeqLen coder rest +
                ((coder.encode s).num_bits - (8 * st.output_buf.capacity - stLen st)) := by
            simp only [codeSeqLen]
            omega
          have hsplit_x : stVal st * 2 ^ (coder.encode s).num_bits +
              (coder.encode s).pattern % 2 ^ (coder.encode s).num_bits =
              (stVal st * 2 ^ (8 * st.output_buf.capacity - stLen st) +
                  ((coder.encode s).pattern % 2 ^ (coder.encode s).num_bits) >>>
                    ((coder.encode s).num_bits - (8 * st.output_buf.capacity - stLen st))) *
                2 ^ ((coder.encode s).num_bits - (8 * st.output_buf.capacity - stLen st)) +
                (coder.encode s).pattern % 2 ^ (coder.encode s).num_bits %
                  2 ^ ((coder.encode s).num_bits - (8 * st.output_buf.capacity - stLen st)) := by
            rw [Nat.add_mul, Nat.mul_assoc, ← Nat.pow_add,
              show 8 * st.output_buf.capacity - stLen st +
                  ((coder.encode s).num_bits - (8 * st.output_buf.capacity - stLen st)) =
                (coder.encode s).num_bits by omega,
              Nat.shiftRight_eq_div_pow]
            have hdm : ((coder.encode s).pattern % 2 ^ (coder.encode s).num_bits /
                  2 ^ ((coder.encode s).num_bits - (8 * st.output_buf.capacity - stLen st))) *
                  2 ^ ((coder.encode s).num_bits - (8 * st.output_buf.capacity - stLen st)) +
                (coder.encode s).pattern % 2 ^ (coder.encode s).num_bits %
                  2 ^ ((coder.encode s).num_bits - (8 * st.output_buf.capacity - stLen st)) =
                (coder.encode s).pattern % 2 ^ (coder.encode s).num_bits := by
              rw [Nat.mul_comm]
              exact Nat.div_add_mod _ _
            omega
          refine ⟨st₁, 1, by simp, by rw [hstep]; rfl, hinv₁, hcap₁, hbp₁, hw0₁, hflen₁,
            ?_, ?_, by omega, ?_⟩
          · -- flushed bytes value
            have e1 : ((stVal st * 2 ^ (coder.encode s).num_bits +
                  (coder.encode s).pattern % 2 ^ (coder.encode s).num_bits) *
                2 ^ codeSeqLen coder rest + codeSeqVal coder rest) >>> codeSeqLen coder rest =
                stVal st * 2 ^ (coder.encode s).num_bits +
                  (coder.encode s).pattern % 2 ^ (coder.encode s).num_bits := by
              rw [Nat.shiftRight_eq_div_pow, split_div_pow _ _ _ _ (le_refl _), Nat.sub_self,
                Nat.pow_zero, Nat.mul_one, Nat.div_eq_of_lt hVrest, Nat.add_zero]
            have e2 : (stVal st * 2 ^ (coder.encode s).num_bits +
                  (coder.encode s).pattern % 2 ^ (coder.encode s).num_bits) >>>
                ((coder.encode s).num_bits - (8 * st.output_buf.capacity - stLen st)) =
                stVal st * 2 ^ (8 * st.output_buf.capacity - stLen st) +
                  ((coder.encode s).pattern % 2 ^ (coder.encode s).num_bits) >>>
                    ((coder.encode s).num_bits - (8 * st.output_buf.capacity - stLen st)) := by
              rw [Nat.shiftRight_eq_div_pow, split_div_pow _ _ _ _ (by omega),
                show (coder.encode s).num_bits -
                    ((coder.encode s).num_bits - (8 * st.output_buf.capacity - stLen st)) =
                  8 * st.output_buf.capacity - stLen st by omega,
                Nat.shiftRight_eq_div_pow]
            rw [hbv₁, hfull, hLtot, Nat.shiftRight_add, e1, e2]
          · -- remaining length
            rw [show (1:Nat) = 0 + 1 from rfl, List.drop_succ_cons, List.drop_zero, hovn₁]
            simp only [codeSeqLen]
            omega
          · -- remaining value
            have hR : (stVal st * 2 ^ codeSeqLen coder (s :: rest) +
                  codeSeqVal coder (s :: rest)) %
                2 ^ (stLen st + codeSeqLen coder (s :: rest) - 8 * st.output_buf.capacity) =
                (coder.encode s).pattern % 2 ^ (coder.encode s).num_bits %
                    2 ^ ((coder.encode s).num_bits - (8 * st.output_buf.capacity - stLen st)) *
                  2 ^ codeSeqLen coder rest + codeSeqVal coder rest := by
              rw [hfull, hsplit_x, Nat.add_mul, Nat.mul_assoc, ← Nat.pow_add, Nat.add_assoc,
                hLtot, Nat.add_comm (codeSeqLen coder rest), split_mod_pow _ _ _ _ (le_refl _)]
              apply Nat.mod_eq_of_lt
              exact mulpow_add_lt _ _ _ _ (Nat.mod_lt _ (pow2_pos _)) hVrest
            rw [show (1:Nat) = 0 + 1 from rfl, List.drop_succ_cons, List.drop_zero, hovn₁, hovp₁,
              hR, mod_pow_mod_pow _ _ _ (by omega)]

/-- A byte-aligned encoder state commits exactly its flushed bytes. -/
theorem stVal_aligned (st : encoder_state) (hinv : encInv st) (hbp : st.bit_pos = 8) :
    bytesVal st.output_buf.data = stVal st ∧ stLen st = 8 * st.output_buf.data.length := by
  obtain ⟨-, -, hwlt, -, -⟩ := hinv
  unfold stVal stLen
  rw [hbp, Nat.sub_self, Nat.pow_zero, Nat.mul_one, Nat.shiftRight_eq_div_pow,
    Nat.div_eq_of_lt hwlt, Nat.add_zero, Nat.add_zero]
  exact ⟨rfl, rfl⟩

/-- Spec of the end-of-stream padding step of `aws_huffman_encode` (run when
the symbol loop has drained the input): it pads the final partial byte with
the low bits of `eos` and flushes it, leaving a byte-aligned state — even
when that very flush fills the buffer (the result is discarded by the
caller, and the overflow stays empty). -/
theorem eos_pad_spec (st2 : encoder_state) (eos : Nat) (hinv2 : encInv st2)
    (hroom2 : st2.output_buf.data.length < st2.output_buf.capacity)
    (hov2 : st2.overflow_bits.num_bits = 0) :
    ∃ st3, (if st2.bit_pos ≠ 8 then (encode_write_bit_pattern st2 ⟨eos, st2.bit_pos⟩).2
        else st2) = st3 ∧
      encInv st3 ∧ st3.output_buf.capacity = st2.output_buf.capacity ∧
      st3.overflow_bits.num_bits = 0 ∧
      st3.output_buf.data.length = (stLen st2 + 7) / 8 ∧
      bytesVal st3.output_buf.data =
        stVal st2 * 2 ^ ((8 - stLen st2 % 8) % 8) + eos % 2 ^ ((8 - stLen st2 % 8) % 8) := by
  obtain ⟨hp1, hp8, hw, hwz, hbytes⟩ := hinv2
  obtain ⟨hd1, hd2⟩ := stLen_div st2 ⟨hp1, hp8, hw, hwz, hbytes⟩
  by_cases hbp : st2.bit_pos = 8
  · obtain ⟨hb, hl⟩ := stVal_aligned st2 ⟨hp1, hp8, hw, hwz, hbytes⟩ hbp
    refine ⟨st2, by rw [if_neg (by omega)], ⟨hp1, hp8, hw, hwz, hbytes⟩, rfl, hov2, ?_, ?_⟩
    · omega
    · rw [show (8 - stLen st2 % 8) % 8 = 0 by omega, Nat.pow_zero, Nat.mul_one, Nat.mod_one,
        Nat.add_zero, hb]
  · have hnb : (⟨eos, st2.bit_pos⟩ : aws_huffman_code).num_bits ≠ 0 := by
      dsimp only
      omega
    obtain ⟨st3, hw3, hinv3, hcap3, hsucc3, hshort3⟩ :=
      encode_write_loop_spec eos st2.bit_pos (by omega) st2.bit_pos st2 (le_refl _)
        ⟨hp1, hp8, hw, hwz, hbytes⟩ hroom2
    have heqc : encode_write_bit_pattern st2 ⟨eos, st2.bit_pos⟩ =
        encode_write_loop eos st2.bit_pos st2.bit_pos st2 :=
      encode_write_bit_pattern_eq st2 ⟨eos, st2.bit_pos⟩ hnb
    have hexp : (8 - stLen st2 % 8) % 8 = st2.bit_pos := by omega
    refine ⟨st3, ?_, hinv3, hcap3, ?_, ?_, ?_⟩
    · rw [if_pos hbp, heqc, hw3]
    · by_cases hfits : (stLen st2 + st2.bit_pos) / 8 < st2.output_buf.capacity
      · obtain ⟨hov3, -, -⟩ := hsucc3 hfits
        rw [hov3]
        exact hov2
      · obtain ⟨-, -, -, -, hovn3, -⟩ := hshort3 (by omega)
        rw [hovn3]
        omega
    · by_cases hfits : (stLen st2 + st2.bit_pos) / 8 < st2.output_buf.capacity
      · obtain ⟨-, -, hlen3⟩ := hsucc3 hfits
        obtain ⟨hd1', hd2'⟩ := stLen_div st3 hinv3
        omega
      · obtain ⟨-, -, hflen3, -, -, -⟩ := hshort3 (by omega)
        rw [hflen3]
        omega
    · by_cases hfits : (stLen st2 + st2.bit_pos) / 8 < st2.output_buf.capacity
      · obtain ⟨-, hval3, hlen3⟩ := hsucc3 hfits
        obtain ⟨hd1', hd2'⟩ := stLen_div st3 hinv3
        have hbp3 : st3.bit_pos = 8 := by
          obtain ⟨g1, g8, -, -, -⟩ := hinv3
          omega
        obtain ⟨hb3, -⟩ := stVal_aligned st3 hinv3 hbp3
        rw [hb3, hval3, hexp]
      · have hk : 8 * st2.output_buf.capacity - stLen st2 = st2.bit_pos := by omega
        obtain ⟨-, -, -, hbv3, -, -⟩ := hshort3 (by omega)
        rw [hbv3, hk, Nat.sub_self, Nat.shiftRight_zero, hexp]

/-- Slicing a two-part bit stream after its first `c` bits, where the first
part is `n` bits long (`c ≤ n`): the flushed part and the remainder. -/
theorem stream_slice0 (x v L c n : Nat) (hv : v < 2 ^ L) (hc : c ≤ n) :
    (x * 2 ^ L + v) >>> ((n - c) + L) = x >>> (n - c) ∧
      (x % 2 ^ n * 2 ^ L + v) % 2 ^ ((n - c) + L) = x % 2 ^ (n - c) * 2 ^ L + v := by
  constructor
  · rw [Nat.add_comm (n - c) L, Nat.shiftRight_add]
    rw [Nat.shiftRight_eq_div_pow _ L, split_div_pow _ _ _ _ (le_refl _), Nat.sub_self,
      Nat.pow_zero, Nat.mul_one, Nat.div_eq_of_lt hv, Nat.add_zero]
  · have hsplit : x % 2 ^ n = x % 2 ^ n / 2 ^ (n - c) * 2 ^ (n - c) + x % 2 ^ n % 2 ^ (n - c) := by
      rw [Nat.mul_comm]
      exact (Nat.div_add_mod _ _).symm
    rw [mod_pow_mod_pow _ _ _ (by omega)] at hsplit
    rw [hsplit, Nat.add_mul, Nat.mul_assoc, ← Nat.pow_add, Nat.add_assoc,
      split_mod_pow _ _ _ _ (le_refl _), Nat.mod_eq_of_lt]
    exact mulpow_add_lt _ _ _ _ (Nat.mod_lt _ (pow2_pos _)) hv

/-- Full characterization of one `aws_huffman_encode` call on a fresh (empty)
output buffer: with every input symbol's code 1..32 bits and any pending
overflow of at most 31 bits, the call either succeeds — consuming all input,
appending the overflow bits, all code bits and the EOS padding, byte-aligned
— or returns short-buffer with exactly `capacity` bytes written (the first
`8·capacity` bits of the combined stream) and the rest of the stream held in
overflow plus the unread symbols. -/
theorem aws_huffman_encode_spec (coder : aws_huffman_symbol_coder)
    (encoder : aws_huffman_encoder) (input : List Nat) (cap : Nat)
    (hcodes : ∀ s ∈ input, 1 ≤ (coder.encode s).num_bits ∧ (coder.encode s).num_bits ≤ 32)
    (hov : encoder.overflow_bits.num_bits ≤ 31)
    (hcap : 1 ≤ cap) :
    ((encoder.overflow_bits.num_bits + codeSeqLen coder input) / 8 < cap →
      ∃ out ov',
        aws_huffman_encode coder encoder input ⟨[], cap⟩ =
          (.success, ⟨encoder.eos_padding, ov'⟩, [], out) ∧
        ov'.num_bits = 0 ∧ out.capacity = cap ∧
        out.data.length = (encoder.overflow_bits.num_bits + codeSeqLen coder input + 7) / 8 ∧
        (∀ b ∈ out.data, b < 2 ^ 8) ∧
        bytesVal out.data =
          (encoder.overflow_bits.pattern % 2 ^ encoder.overflow_bits.num_bits *
              2 ^ codeSeqLen coder input + codeSeqVal coder input) *
            2 ^ ((8 - (encoder.overflow_bits.num_bits + codeSeqLen coder input) % 8) % 8) +
          encoder.eos_padding %
            2 ^ ((8 - (encoder.overflow_bits.num_bits + codeSeqLen coder input) % 8) % 8)) ∧
    (cap ≤ (encoder.overflow_bits.num_bits + codeSeqLen coder input) / 8 →
      ∃ out ov' j, j ≤ input.length ∧
        aws_huffman_encode coder encoder input ⟨[], cap⟩ =
          (.shortBuffer, ⟨encoder.eos_padding, ov'⟩, input.drop j, out) ∧
        out.capacity = cap ∧ out.data.length = cap ∧ (∀ b ∈ out.data, b < 2 ^ 8) ∧
        bytesVal out.data =
          (encoder.overflow_bits.pattern % 2 ^ encoder.overflow_bits.num_bits *
              2 ^ codeSeqLen coder input + codeSeqVal coder input) >>>
            (encoder.overflow_bits.num_bits + codeSeqLen coder input - 8 * cap) ∧
        ov'.num_bits ≤ 31 ∧
        ov'.num_bits + codeSeqLen coder (input.drop j) =
          encoder.overflow_bits.num_bits + codeSeqLen coder input - 8 * cap ∧
        ov'.pattern % 2 ^ ov'.num_bits * 2 ^ codeSeqLen coder (input.drop j) +
            codeSeqVal coder (input.drop j) =
          (encoder.overflow_bits.pattern % 2 ^ encoder.overflow_bits.num_bits *
              2 ^ codeSeqLen coder input + codeSeqVal coder input) %
            2 ^ (encoder.overflow_bits.num_bits + codeSeqLen coder input - 8 * cap)) := by
  have hinv0 : encInv ⟨0, 8, ⟨[], cap⟩, encoder.overflow_bits⟩ := by
    refine ⟨?_, ?_, ?_, ?_, ?_⟩ <;> dsimp only
    · omega
    · omega
    · exact pow2_pos 8
    · exact Nat.zero_mod _
    · simp
  have hlen0 : stLen ⟨0, 8, ⟨[], cap⟩, encoder.overflow_bits⟩ = 0 := by
    unfold stLen
    dsimp only
    simp
  have hval0 : stVal ⟨0, 8, ⟨[], cap⟩, encoder.overflow_bits⟩ = 0 := by
    unfold stVal
    dsimp only
    simp [bytesVal]
  have hroom0 : (⟨0, 8, ⟨[], cap⟩, encoder.overflow_bits⟩ :
      encoder_state).output_buf.data.length <
      (⟨0, 8, ⟨[], cap⟩, encoder.overflow_bits⟩ : encoder_state).output_buf.capacity := by
    dsimp only
    simpa using hcap
  have hentry : ¬((⟨[], cap⟩ : aws_byte_buf).data.length = (⟨[], cap⟩ : aws_byte_buf).capacity) := by
    dsimp only
    simpa using by omega
  by_cases hoz : encoder.overflow_bits.num_bits = 0
  · -- no pending overflow
    have hV0 : encoder.overflow_bits.pattern % 2 ^ encoder.overflow_bits.num_bits = 0 := by
      rw [hoz, Nat.pow_zero, Nat.mod_one]
    rw [aws_huffman_encode, if_neg hentry]
    dsimp only
    rw [if_neg (by omega : ¬encoder.overflow_bits.num_bits ≠ 0)]
    dsimp only
    obtain ⟨hsS, hsSh⟩ := aws_huffman_encode_symbols_spec coder input
      ⟨0, 8, ⟨[], cap⟩, encoder.overflow_bits⟩ hcodes hinv0 hroom0
    constructor
    · intro hfit
      obtain ⟨st2, heq2, hinv2, hcap2, hroom2, hov2, hval2, hlen2⟩ := hsS (by
        rw [hlen0]
        dsimp only
        omega)
      dsimp only at hcap2 hroom2
      obtain ⟨st3, hif3, hinv3, hcap3, hovn3, hlen3, hbv3⟩ :=
        eos_pad_spec st2 encoder.eos_padding hinv2 (by omega) (by rw [hov2]; exact hoz)
      rw [heq2]
      dsimp only
      rw [hif3]
      refine ⟨st3.output_buf, st3.overflow_bits, rfl, hovn3, by omega, ?_,
        hinv3.2.2.2.2, ?_⟩
      · rw [hlen3, hlen2, hlen0, hoz]
      · rw [hbv3, hval2, hval0, hlen2, hlen0, hV0, hoz]
    · intro habs
      obtain ⟨st2, j, hj, heq2, hinv2, hcap2, hbp2, hw02, hflen2, hbv2, hsum2, h312, hrest2⟩ :=
        hsSh (by
          rw [hlen0]
          dsimp only
          omega)
      dsimp only at hcap2 hflen2
      rw [heq2]
      dsimp only
      refine ⟨st2.output_buf, st2.overflow_bits, j, hj, rfl, by omega, by omega,
        hinv2.2.2.2.2, ?_, h312, ?_, ?_⟩
      · rw [hbv2, hval0, hlen0, hV0, hoz]
      · rw [hsum2, hlen0, hoz]
      · rw [hrest2, hval0, hlen0, hV0, hoz]
  · -- pending overflow bits are written first
    rw [aws_huffman_encode, if_neg hentry]
    dsimp only
    rw [if_pos hoz]
    have heqc : encode_write_bit_pattern ⟨0, 8, ⟨[], cap⟩, encoder.overflow_bits⟩
        encoder.overflow_bits =
        encode_write_loop encoder.overflow_bits.pattern encoder.overflow_bits.num_bits
          encoder.overflow_bits.num_bits ⟨0, 8, ⟨[], cap⟩, encoder.overflow_bits⟩ :=
      encode_write_bit_pattern_eq _ _ hoz
    obtain ⟨st1, hw1, hinv1, hcap1, hsucc1, hshort1⟩ :=
      encode_write_loop_spec encoder.overflow_bits.pattern encoder.overflow_bits.num_bits
        (by omega) encoder.overflow_bits.num_bits ⟨0, 8, ⟨[], cap⟩, encoder.overflow_bits⟩
        (le_refl _) hinv0 hroom0
    rw [heqc, hw1]
    dsimp only at hcap1
    by_cases hofit : (stLen ⟨0, 8, ⟨[], cap⟩, encoder.overflow_bits⟩ +
        encoder.overflow_bits.num_bits) / 8 <
        (⟨0, 8, ⟨[], cap⟩, encoder.overflow_bits⟩ : encoder_state).output_buf.capacity
    · -- the pending bits fit; the symbol loop continues
      rw [if_pos hofit]
      dsimp only
      obtain ⟨hov1, hval1, hlen1⟩ := hsucc1 hofit
      rw [hval0, Nat.zero_mul, Nat.zero_add] at hval1
      rw [hlen0, Nat.zero_add] at hlen1
      rw [hlen0] at hofit
      dsimp only at hofit
      rw [Nat.zero_add] at hofit
      have hinv1' : encInv { st1 with overflow_bits := (⟨0, 0⟩ : aws_huffman_code) } := hinv1
      have hroom1 : ({ st1 with overflow_bits := (⟨0, 0⟩ : aws_huffman_code) } :
          encoder_state).output_buf.data.length <
          ({ st1 with overflow_bits := (⟨0, 0⟩ : aws_huffman_code) } :
          encoder_state).output_buf.capacity := by
        show st1.output_buf.data.length < st1.output_buf.capacity
        obtain ⟨he1, he2⟩ := stLen_div st1 hinv1
        omega
      have hval1' : stVal { st1 with overflow_bits := (⟨0, 0⟩ : aws_huffman_code) } =
          encoder.overflow_bits.pattern % 2 ^ encoder.overflow_bits.num_bits := hval1
      have hlen1' : stLen { st1 with overflow_bits := (⟨0, 0⟩ : aws_huffman_code) } =
          encoder.overflow_bits.num_bits := hlen1
      have hcap1' : ({ st1 with overflow_bits := (⟨0, 0⟩ : aws_huffman_code) } :
          encoder_state).output_buf.capacity = cap := hcap1
      obtain ⟨hsS, hsSh⟩ := aws_huffman_encode_symbols_spec coder input
        { st1 with overflow_bits := (⟨0, 0⟩ : aws_huffman_code) } hcodes hinv1' hroom1
      constructor
      · intro hfit
        obtain ⟨st2, heq2, hinv2, hcap2, hroom2, hov2, hval2, hlen2⟩ := hsS (by
          rw [hlen1', hcap1']
          exact hfit)
        rw [hcap1'] at hcap2 hroom2
        obtain ⟨st3, hif3, hinv3, hcap3, hovn3, hlen3, hbv3⟩ :=
          eos_pad_spec st2 encoder.eos_padding hinv2 (by omega) (by rw [hov2])
        rw [heq2]
        dsimp only
        rw [hif3]
        refine ⟨st3.output_buf, st3.overflow_bits, rfl, hovn3, by omega, ?_,
          hinv3.2.2.2.2, ?_⟩
        · rw [hlen3, hlen2, hlen1']
        · rw [hbv3, hval2, hval1', hlen2, hlen1']
      · intro habs
        obtain ⟨st2, j, hj, heq2, hinv2, hcap2, hbp2, hw02, hflen2, hbv2, hsum2, h312, hrest2⟩ :=
          hsSh (by
            rw [hlen1', hcap1']
            exact habs)
        rw [hcap1'] at hcap2 hflen2
        rw [heq2]
        dsimp only
        refine ⟨st2.output_buf, st2.overflow_bits, j, hj, rfl, by omega, by omega,
          hinv2.2.2.2.2, ?_, h312, ?_, ?_⟩
        · rw [hbv2, hval1', hlen1', hcap1']
        · rw [hsum2, hlen1', hcap1']
        · rw [hrest2, hval1', hlen1', hcap1']
    · -- even the pending bits exhaust the buffer
      rw [if_neg hofit]
      dsimp only
      rw [hlen0] at hofit
      dsimp only at hofit
      rw [Nat.zero_add] at hofit
      obtain ⟨hbp1, hw01, hflen1, hbv1, hovn1, hovp1⟩ := hshort1 (by
        rw [hlen0]
        dsimp only
        omega)
      rw [hval0, hlen0] at hbv1
      dsimp only at hbv1 hflen1 hovn1 hovp1
      rw [Nat.zero_mul, Nat.zero_add, Nat.sub_zero] at hbv1
      rw [hlen0] at hovn1 hovp1
      rw [Nat.sub_zero] at hovn1 hovp1
      have hVc := codeSeqVal_lt coder input
      have h8c : 8 * cap ≤ encoder.overflow_bits.num_bits := by omega
      constructor
      · intro hfit
        exfalso
        omega
      · intro habs
        refine ⟨st1.output_buf, st1.overflow_bits, 0, by omega, ?_, by omega, by omega,
          hinv1.2.2.2.2, ?_, ?_, ?_, ?_⟩
        · rw [List.drop_zero]
        · rw [hbv1, show encoder.overflow_bits.num_bits + codeSeqLen coder input - 8 * cap =
            (encoder.overflow_bits.num_bits - 8 * cap) + codeSeqLen coder input by omega,
            (stream_slice0 (encoder.overflow_bits.pattern % 2 ^ encoder.overflow_bits.num_bits)
              (codeSeqVal coder input) (codeSeqLen coder input) (8 * cap)
              encoder.overflow_bits.num_bits hVc h8c).1]
        · rw [hovn1]
          omega
        · rw [List.drop_zero, hovn1]
          omega
        · rw [List.drop_zero, hovn1, hovp1,
            show encoder.overflow_bits.num_bits + codeSeqLen coder input - 8 * cap =
              (encoder.overflow_bits.num_bits - 8 * cap) + codeSeqLen coder input by omega,
            (stream_slice0 encoder.overflow_bits.pattern (codeSeqVal coder input)
              (codeSeqLen coder input) (8 * cap) encoder.overflow_bits.num_bits hVc h8c).2]

/-! ## The output buffer is append-only (no rollback) -/

/-- One write-loop run only appends to the output buffer; capacity and the
`bit_pos ≥ 1` invariant are preserved, and a successful run leaves at least
one free byte whenever it started with one. -/
theorem encode_write_loop_mono (pattern nb : Nat) : ∀ btw st, 1 ≤ st.bit_pos →
    st.output_buf.data.length < st.output_buf.capacity →
    ∃ t, (encode_write_loop pattern nb btw st).2.output_buf.data =
        st.output_buf.data ++ t ∧
      (encode_write_loop pattern nb btw st).2.output_buf.capacity =
        st.output_buf.capacity ∧
      1 ≤ (encode_write_loop pattern nb btw st).2.bit_pos ∧
      ((encode_write_loop pattern nb btw st).1 = .success →
        (encode_write_loop pattern nb btw st).2.output_buf.data.length <
          (encode_write_loop pattern nb btw st).2.output_buf.capacity) := by
  intro btw
  induction btw using Nat.strong_induction_on with
  | _ btw ih =>
    intro st hbp hroom
    by_cases hbz : btw = 0
    · subst hbz
      rw [encode_write_loop_zero]
      exact ⟨[], by simp, rfl, hbp, fun _ => hroom⟩
    · by_cases hflush : st.bit_pos ≤ btw
      · by_cases hfull : st.output_buf.data.length + 1 = st.output_buf.capacity
        · rw [encode_write_loop_flush_full pattern nb btw st hbz hflush hroom hfull]
          refine ⟨[(st.working ||| ((pattern <<< ((32 - nb) + (nb - btw))) % 2 ^ 32) >>>
            (32 - st.bit_pos)) % 2 ^ 8], rfl, rfl, by show (1 : Nat) ≤ 8; omega, ?_⟩
          intro habs
          exact opResult.noConfusion habs
        · rw [encode_write_loop_flush_cont pattern nb btw st hbz hflush hroom hfull]
          obtain ⟨t, h1, h2, h3, h4⟩ := ih (btw - st.bit_pos) (by omega)
            ⟨0, 8, ⟨st.output_buf.data ++
              [(st.working ||| ((pattern <<< ((32 - nb) + (nb - btw))) % 2 ^ 32) >>>
                (32 - st.bit_pos)) % 2 ^ 8], st.output_buf.capacity⟩, st.overflow_bits⟩
            (by show (1 : Nat) ≤ 8; omega)
            (by
              show (st.output_buf.data ++
                [(st.working ||| ((pattern <<< ((32 - nb) + (nb - btw))) % 2 ^ 32) >>>
                  (32 - st.bit_pos)) % 2 ^ 8]).length < st.output_buf.capacity
              rw [List.length_append]
              have hone : ([(st.working ||| ((pattern <<< ((32 - nb) + (nb - btw))) % 2 ^ 32) >>>
                (32 - st.bit_pos)) % 2 ^ 8] : List Nat).length = 1 := rfl
              omega)
          refine ⟨((st.working ||| ((pattern <<< ((32 - nb) + (nb - btw))) % 2 ^ 32) >>>
            (32 - st.bit_pos)) % 2 ^ 8) :: t, ?_, h2, h3, h4⟩
          rw [h1, List.append_assoc, List.singleton_append]
      · rw [encode_write_loop_noflush pattern nb btw st hbz (by omega)]
        exact ⟨[], by simp, rfl, by show 1 ≤ st.bit_pos - btw; omega, fun _ => hroom⟩

/-- `encode_write_bit_pattern` only appends to the output buffer. -/
theorem encode_write_bit_pattern_mono (st : encoder_state) (c : aws_huffman_code)
    (hbp : 1 ≤ st.bit_pos) (hroom : st.output_buf.data.length < st.output_buf.capacity) :
    ∃ t, (encode_write_bit_pattern st c).2.output_buf.data = st.output_buf.data ++ t ∧
      (encode_write_bit_pattern st c).2.output_buf.capacity = st.output_buf.capacity ∧
      1 ≤ (encode_write_bit_pattern st c).2.bit_pos ∧
      ((encode_write_bit_pattern st c).1 = .success →
        (encode_write_bit_pattern st c).2.output_buf.data.length <
          (encode_write_bit_pattern st c).2.output_buf.capacity) := by
  unfold encode_write_bit_pattern
  split
  · exact ⟨[], by simp, rfl, hbp, fun _ => hroom⟩
  · exact encode_write_loop_mono c.pattern c.num_bits c.num_bits st hbp hroom

/-- The symbol loop only appends to the output buffer. -/
theorem encode_symbols_mono (coder : aws_huffman_symbol_coder) : ∀ (input : List Nat)
    (st : encoder_state), 1 ≤ st.bit_pos →
    st.output_buf.data.length < st.output_buf.capacity →
    ∃ t, (aws_huffman_encode_symbols coder input st).2.1.output_buf.data =
        st.output_buf.data ++ t ∧
      (aws_huffman_encode_symbols coder input st).2.1.output_buf.capacity =
        st.output_buf.capacity ∧
      1 ≤ (aws_huffman_encode_symbols coder input st).2.1.bit_pos ∧
      ((aws_huffman_encode_symbols coder input st).1 = .success →
        (aws_huffman_encode_symbols coder input st).2.1.output_buf.data.length <
          (aws_huffman_encode_symbols coder input st).2.1.output_buf.capacity) := by
  intro input
  induction input with
  | nil =>
    intro st hbp hroom
    refine ⟨[], ?_, rfl, hbp, fun _ => hroom⟩
    show st.output_buf.data = st.output_buf.data ++ []
    rw [List.append_nil]
  | cons b rest ihr =>
    intro st hbp hroom
    obtain ⟨t1, h1, h2, h3, h4⟩ := encode_write_bit_pattern_mono st (coder.encode b) hbp hroom
    rcases hw : encode_write_bit_pattern st (coder.encode b) with ⟨r1, st1⟩
    rw [hw] at h1 h2 h3 h4
    dsimp only at h1 h2 h3 h4
    rcases r1 with _ | _ | _
    · -- the write succeeded: the loop continues
      rw [aws_huffman_encode_symbols, hw]
      obtain ⟨t2, g1, g2, g3, g4⟩ := ihr st1 h3 (h4 rfl)
      refine ⟨t1 ++ t2, ?_, by rw [g2, h2], g3, g4⟩
      rw [g1, h1, List.append_assoc]
    · rw [aws_huffman_encode_symbols, hw]
      exact ⟨t1, h1, h2, h3, fun habs => opResult.noConfusion habs⟩
    · rw [aws_huffman_encode_symbols, hw]
      exact ⟨t1, h1, h2, h3, fun habs => opResult.noConfusion habs⟩

/-- The EOS-padding step only appends to the output buffer. -/
theorem eos_state_mono (st : encoder_state) (e : Nat)
    (hbp : 1 ≤ st.bit_pos) (hroom : st.output_buf.data.length < st.output_buf.capacity) :
    ∃ t, (if st.bit_pos ≠ 8 then
        (encode_write_bit_pattern st ⟨e, st.bit_pos⟩).2 else st).output_buf.data =
        st.output_buf.data ++ t ∧
      (if st.bit_pos ≠ 8 then
        (encode_write_bit_pattern st ⟨e, st.bit_pos⟩).2 else st).output_buf.capacity =
        st.output_buf.capacity := by
  split
  · obtain ⟨t, h1, h2, h3, h4⟩ := encode_write_bit_pattern_mono st ⟨e, st.bit_pos⟩ hbp hroom
    exact ⟨t, h1, h2⟩
  · exact ⟨[], by simp, rfl⟩

/-- A full `aws_huffman_encode` call only appends to the output buffer
(given the byte-buffer invariant `length ≤ capacity`): whatever was already
flushed stays committed, regardless of the call's outcome. -/
theorem aws_huffman_encode_mono (coder : aws_huffman_symbol_coder)
    (encoder : aws_huffman_encoder) (input : List Nat) (output : aws_byte_buf)
    (hbuf : output.data.length ≤ output.capacity) :
    ∃ t, (aws_huffman_encode coder encoder input output).2.2.2.data =
        output.data ++ t ∧
      (aws_huffman_encode coder encoder input output).2.2.2.capacity =
        output.capacity := by
  rw [aws_huffman_encode]
  by_cases hentry : output.data.length = output.capacity
  · rw [if_pos hentry]
    exact ⟨[], by simp, rfl⟩
  · rw [if_neg hentry]
    dsimp only
    have hroom0 : (⟨0, 8, output, encoder.overflow_bits⟩ :
        encoder_state).output_buf.data.length <
        (⟨0, 8, output, encoder.overflow_bits⟩ : encoder_state).output_buf.capacity := by
      show output.data.length < output.capacity
      omega
    by_cases hoz : encoder.overflow_bits.num_bits ≠ 0
    · rw [if_pos hoz]
      obtain ⟨t1, h1, h2, h3, h4⟩ := encode_write_bit_pattern_mono
        ⟨0, 8, output, encoder.overflow_bits⟩ encoder.overflow_bits
        (by show (1 : Nat) ≤ 8; omega) hroom0
      rcases hw : encode_write_bit_pattern ⟨0, 8, output, encoder.overflow_bits⟩
          encoder.overflow_bits with ⟨r1, st1⟩
      rw [hw] at h1 h2 h3 h4
      dsimp only at h1 h2 h3 h4
      rcases r1 with _ | _ | _
      · -- overflow write succeeded; the symbol loop runs
        dsimp only
        obtain ⟨t2, g1, g2, g3, g4⟩ := encode_symbols_mono coder input
          { st1 with overflow_bits := (⟨0, 0⟩ : aws_huffman_code) } h3 (h4 rfl)
        rcases hsym : aws_huffman_encode_symbols coder input
            { st1 with overflow_bits := (⟨0, 0⟩ : aws_huffman_code) } with ⟨r2, st2, rest⟩
        rw [hsym] at g1 g2 g3 g4
        dsimp only at g1 g2 g3 g4
        rcases r2 with _ | _ | _
        · dsimp only
          obtain ⟨t3, e1, e2⟩ := eos_state_mono st2 encoder.eos_padding g3 (g4 rfl)
          refine ⟨t1 ++ (t2 ++ t3), ?_, ?_⟩
          · rw [e1, g1, h1, List.append_assoc, List.append_assoc]
          · rw [e2, g2, h2]
        · dsimp only
          refine ⟨t1 ++ t2, ?_, by rw [g2, h2]⟩
          rw [g1, h1, List.append_assoc]
        · dsimp only
          refine ⟨t1 ++ t2, ?_, by rw [g2, h2]⟩
          rw [g1, h1, List.append_assoc]
      · dsimp only
        exact ⟨t1, h1, h2⟩
      · dsimp only
        exact ⟨t1, h1, h2⟩
    · rw [if_neg hoz]
      dsimp only
      obtain ⟨t2, g1, g2, g3, g4⟩ := encode_symbols_mono coder input
        ⟨0, 8, output, encoder.overflow_bits⟩ (by show (1 : Nat) ≤ 8; omega) hroom0
      rcases hsym : aws_huffman_encode_symbols coder input
          ⟨0, 8, output, encoder.overflow_bits⟩ with ⟨r2, st2, rest⟩
      rw [hsym] at g1 g2 g3 g4
      dsimp only at g1 g2 g3 g4
      rcases r2 with _ | _ | _
      · dsimp only
        obtain ⟨t3, e1, e2⟩ := eos_state_mono st2 encoder.eos_padding g3 (g4 rfl)
        refine ⟨t2 ++ t3, ?_, by rw [e2, g2]⟩
        rw [e1, g1, List.append_assoc]
      · dsimp only
        exact ⟨t2, g1, g2⟩
      · dsimp only
        exact ⟨t2, g1, g2⟩

/-- A coder knowing only symbol `65`, with an 8-bit code; `255` has no code. -/
def c4bCoder : aws_huffman_symbol_coder where
  encode s := if s = 65 then ⟨65, 8⟩ else ⟨0, 0⟩
  decode _ := (0, 0)

/-! ## C3, C4, C5, C9 -/

/-- C4 (amended): on an unknown symbol the call fails with unknown-symbol and
the output buffer is never rolled back — every byte flushed for previously
processed symbols stays committed (any call only appends to the buffer);
bits of the in-progress partial byte, however, live only in the call-local
working byte and do not reach the buffer.  Encoding `[65, 255]` with a table
giving `65` an 8-bit code and lacking `255` returns unknown-symbol with
`65`'s flushed byte still committed. -/
theorem unknown_symbol_no_rollback (coder : aws_huffman_symbol_coder)
    (encoder : aws_huffman_encoder) (input : List Nat) (output : aws_byte_buf)
    (hbuf : output.data.length ≤ output.capacity) :
    (∃ t, (aws_huffman_encode coder encoder input output).2.2.2.data =
      output.data ++ t) ∧
    aws_huffman_encode c4bCoder ⟨255, ⟨0, 0⟩⟩ [65, 255] ⟨[], 10⟩ =
      (.unknownSymbol, ⟨255, ⟨0, 0⟩⟩, [], ⟨[65], 10⟩) := by
  refine ⟨?_, ?_⟩
  · obtain ⟨t, h1, -⟩ := aws_huffman_encode_mono coder encoder input output hbuf
    exact ⟨t, h1⟩
  · simp [aws_huffman_encode, aws_huffman_encode_symbols, encode_write_bit_pattern,
      encode_write_loop, aws_byte_buf_write_u8, c4bCoder]

/-- Witness for C4 at a concrete buffer satisfying the byte-buffer invariant. -/
theorem unknown_symbol_no_rollback_witness :
    (∃ t, (aws_huffman_encode c4bCoder ⟨255, ⟨0, 0⟩⟩ [65, 255] ⟨[], 10⟩).2.2.2.data =
      (⟨[], 10⟩ : aws_byte_buf).data ++ t) ∧
    aws_huffman_encode c4bCoder ⟨255, ⟨0, 0⟩⟩ [65, 255] ⟨[], 10⟩ =
      (.unknownSymbol, ⟨255, ⟨0, 0⟩⟩, [], ⟨[65], 10⟩) :=
  unknown_symbol_no_rollback c4bCoder ⟨255, ⟨0, 0⟩⟩ [65, 255] ⟨[], 10⟩ (by decide)

/-- C5 (amended): a call on a fresh output buffer returns success exactly
when the whole bit stream (pending overflow plus all code bits) flushes
fewer than `capacity` whole bytes — i.e. the final (possibly padded) byte
must not land in the last free slot; on success all input is consumed and
no overflow is pending.  In particular short-buffer can also be returned
with zero bits left unwritten (the exact-fit final flush), so suspension
mid-code is not the only short-buffer path. -/
theorem encode_success_iff (coder : aws_huffman_symbol_coder)
    (encoder : aws_huffman_encoder) (input : List Nat) (cap : Nat)
    (hcodes : ∀ s ∈ input, 1 ≤ (coder.encode s).num_bits ∧ (coder.encode s).num_bits ≤ 32)
    (hov : encoder.overflow_bits.num_bits ≤ 31)
    (hcap : 1 ≤ cap) :
    ((aws_huffman_encode coder encoder input ⟨[], cap⟩).1 = .success ↔
      (encoder.overflow_bits.num_bits + codeSeqLen coder input) / 8 < cap) ∧
    ((encoder.overflow_bits.num_bits + codeSeqLen coder input) / 8 < cap →
      (aws_huffman_encode coder encoder input ⟨[], cap⟩).2.2.1 = [] ∧
      (aws_huffman_encode coder encoder input ⟨[], cap⟩).2.1.overflow_bits.num_bits = 0) := by
  obtain ⟨hfit, hshort⟩ := aws_huffman_encode_spec coder encoder input cap hcodes hov hcap
  refine ⟨⟨?_, ?_⟩, ?_⟩
  · intro hs
    by_contra hge
    obtain ⟨out, ov', j, hj, heq, -⟩ := hshort (by omega)
    rw [heq] at hs
    exact opResult.noConfusion hs
  · intro h
    obtain ⟨out, ov', heq, -⟩ := hfit h
    rw [heq]
  · intro h
    obtain ⟨out, ov', heq, hovn, -⟩ := hfit h
    rw [heq]
    exact ⟨rfl, hovn⟩

/-- Witness for C5: one 8-bit symbol into a 2-byte buffer. -/
theorem encode_success_iff_witness :
    (((aws_huffman_encode idCoder ⟨255, ⟨0, 0⟩⟩ [65] ⟨[], 2⟩).1 = .success ↔
      ((⟨255, ⟨0, 0⟩⟩ : aws_huffman_encoder).overflow_bits.num_bits +
        codeSeqLen idCoder [65]) / 8 < 2) ∧
    (((⟨255, ⟨0, 0⟩⟩ : aws_huffman_encoder).overflow_bits.num_bits +
        codeSeqLen idCoder [65]) / 8 < 2 →
      (aws_huffman_encode idCoder ⟨255, ⟨0, 0⟩⟩ [65] ⟨[], 2⟩).2.2.1 = [] ∧
      (aws_huffman_encode idCoder ⟨255, ⟨0, 0⟩⟩ [65]
        ⟨[], 2⟩).2.1.overflow_bits.num_bits = 0)) :=
  encode_success_iff idCoder ⟨255, ⟨0, 0⟩⟩ [65] 2 (by decide) (by decide) (by decide)

/-- C3 (amended): a complete successful call whose final byte is partial
pads its free low positions with the corresponding **low-order** bits of
`eos_padding` (the value `eos_padding mod 2 ^ free`), flushes that byte,
and ends byte-aligned (`ceil(total bits / 8)` whole bytes in the buffer). -/
theorem eos_padding_low_bits (coder : aws_huffman_symbol_coder)
    (encoder : aws_huffman_encoder) (input : List Nat) (cap : Nat)
    (hcodes : ∀ s ∈ input, 1 ≤ (coder.encode s).num_bits ∧ (coder.encode s).num_bits ≤ 32)
    (hov : encoder.overflow_bits.num_bits ≤ 31)
    (hcap : 1 ≤ cap)
    (hfit : (encoder.overflow_bits.num_bits + codeSeqLen coder input) / 8 < cap) :
    ∃ out ov',
      aws_huffman_encode coder encoder input ⟨[], cap⟩ =
        (.success, ⟨encoder.eos_padding, ov'⟩, [], out) ∧
      out.data.length = (encoder.overflow_bits.num_bits + codeSeqLen coder input + 7) / 8 ∧
      bytesVal out.data =
        (encoder.overflow_bits.pattern % 2 ^ encoder.overflow_bits.num_bits *
            2 ^ codeSeqLen coder input + codeSeqVal coder input) *
          2 ^ ((8 - (encoder.overflow_bits.num_bits + codeSeqLen coder input) % 8) % 8) +
        encoder.eos_padding %
          2 ^ ((8 - (encoder.overflow_bits.num_bits + codeSeqLen coder input) % 8) % 8) := by
  obtain ⟨hfitc, -⟩ := aws_huffman_encode_spec coder encoder input cap hcodes hov hcap
  obtain ⟨out, ov', heq, hovn, hcapo, hlen, hb, hbv⟩ := hfitc hfit
  exact ⟨out, ov', heq, hlen, hbv⟩

/-- Witness for C3: one 1-bit code, 7 free positions padded from
`eos_padding = 255` low bits. -/
theorem eos_padding_low_bits_witness :
    ∃ out ov',
      aws_huffman_encode oneCoder ⟨255, ⟨0, 0⟩⟩ [0] ⟨[], 1⟩ =
        (.success, ⟨(⟨255, ⟨0, 0⟩⟩ : aws_huffman_encoder).eos_padding, ov'⟩, [], out) ∧
      out.data.length = ((⟨255, ⟨0, 0⟩⟩ : aws_huffman_encoder).overflow_bits.num_bits +
        codeSeqLen oneCoder [0] + 7) / 8 ∧
      bytesVal out.data =
        ((⟨255, ⟨0, 0⟩⟩ : aws_huffman_encoder).overflow_bits.pattern %
            2 ^ (⟨255, ⟨0, 0⟩⟩ : aws_huffman_encoder).overflow_bits.num_bits *
            2 ^ codeSeqLen oneCoder [0] + codeSeqVal oneCoder [0]) *
          2 ^ ((8 - ((⟨255, ⟨0, 0⟩⟩ : aws_huffman_encoder).overflow_bits.num_bits +
            codeSeqLen oneCoder [0]) % 8) % 8) +
        (⟨255, ⟨0, 0⟩⟩ : aws_huffman_encoder).eos_padding %
          2 ^ ((8 - ((⟨255, ⟨0, 0⟩⟩ : aws_huffman_encoder).overflow_bits.num_bits +
            codeSeqLen oneCoder [0]) % 8) % 8) :=
  eos_padding_low_bits oneCoder ⟨255, ⟨0, 0⟩⟩ [0] 1 (by decide) (by decide) (by decide)
    (by decide)

/-- The length accumulator sums the codes' bit counts. -/
theorem get_encoded_length_bits_eq (coder : aws_huffman_symbol_coder) :
    ∀ (l : List Nat) (acc : Nat),
      get_encoded_length_bits coder l acc = acc + codeSeqLen coder l := by
  intro l
  induction l with
  | nil =>
    intro acc
    simp only [get_encoded_length_bits, codeSeqLen]
    omega
  | cons b rest ihr =>
    intro acc
    simp only [get_encoded_length_bits, codeSeqLen, ihr]
    omega

/-- C9: `aws_huffman_get_encoded_length` returns `ceil(total code bits / 8)`
(it reads the coder only, mutating nothing — in this model it is a pure
function of the coder and the sequence), and this equals the number of bytes
a complete, successful `aws_huffman_encode` call on the same sequence from a
fresh (no pending overflow) encoder appends to a fresh buffer. -/
theorem get_encoded_length_correct (coder : aws_huffman_symbol_coder)
    (eos : Nat) (input : List Nat) (cap : Nat)
    (hcodes : ∀ s ∈ input, 1 ≤ (coder.encode s).num_bits ∧ (coder.encode s).num_bits ≤ 32)
    (hcap : 1 ≤ cap)
    (hfit : codeSeqLen coder input / 8 < cap) :
    aws_huffman_get_encoded_length coder input = (codeSeqLen coder input + 7) / 8 ∧
    ∃ out ov',
      aws_huffman_encode coder ⟨eos, ⟨0, 0⟩⟩ input ⟨[], cap⟩ =
        (.success, ⟨eos, ov'⟩, [], out) ∧
      out.data.length = aws_huffman_get_encoded_length coder input := by
  have h1 : aws_huffman_get_encoded_length coder input =
      (codeSeqLen coder input + 7) / 8 := by
    rw [aws_huffman_get_encoded_length]
    rw [get_encoded_length_bits_eq]
    split <;> omega
  refine ⟨h1, ?_⟩
  obtain ⟨hfitc, -⟩ := aws_huffman_encode_spec coder ⟨eos, ⟨0, 0⟩⟩ input cap hcodes
    (by exact Nat.zero_le 31) hcap
  obtain ⟨out, ov', heq, hovn, hcapo, hlen, hb, hbv⟩ := hfitc (by
    show (0 + codeSeqLen coder input) / 8 < cap
    omega)
  refine ⟨out, ov', heq, ?_⟩
  rw [hlen, h1]
  show (0 + codeSeqLen coder input + 7) / 8 = (codeSeqLen coder input + 7) / 8
  omega

/-- Witness for C9: one 8-bit symbol, estimator 1 byte, encode appends 1. -/
theorem get_encoded_length_correct_witness :
    (aws_huffman_get_encoded_length idCoder [65] = (codeSeqLen idCoder [65] + 7) / 8 ∧
    ∃ out ov',
      aws_huffman_encode idCoder ⟨255, ⟨0, 0⟩⟩ [65] ⟨[], 2⟩ =
        (.success, ⟨255, ov'⟩, [], out) ∧
      out.data.length = aws_huffman_get_encoded_length idCoder [65]) :=
  get_encoded_length_correct idCoder 255 [65] 2 (by decide) (by decide) (by decide)

/-! ## Decoder-state representation

A decoder `d` together with its unread cursor `input` holds the bit string
`(V, L)`: the top `num_bits` bits of `working_bits` are the first `num_bits`
bits of the string, and the cursor bytes are the remaining `L - num_bits`
bits (whole bytes). -/

theorem mod_pow_shiftRight (x a b : Nat) : (x % 2 ^ (a + b)) >>> b = (x >>> b) % 2 ^ a := by
  rw [Nat.shiftRight_eq_div_pow, Nat.shiftRight_eq_div_pow, Nat.pow_add,
    Nat.mul_comm (2 ^ a) (2 ^ b)]
  exact Nat.mod_mul_right_div_self x _ _

/-- `d` buffering the first bits of the string `(V, L)`, cursor `input`
holding the rest. -/
def decRep (d : aws_huffman_decoder) (input : List Nat) (V L : Nat) : Prop :=
  L = d.num_bits + 8 * input.length ∧
  d.num_bits ≤ 39 ∧
  V < 2 ^ L ∧
  d.working_bits = (V >>> (8 * input.length)) <<< (64 - d.num_bits) ∧
  (∀ b ∈ input, b < 2 ^ 8) ∧
  V % 2 ^ (8 * input.length) = bytesVal input

/-- The top bits held by a represented decoder are bounded. -/
theorem decRep_top_lt (d : aws_huffman_decoder) (input : List Nat) (V L : Nat)
    (h : decRep d input V L) : V >>> (8 * input.length) < 2 ^ d.num_bits := by
  obtain ⟨hL, h39, hV, hw, hb, hlow⟩ := h
  rw [Nat.shiftRight_eq_div_pow]
  apply Nat.div_lt_of_lt_mul
  rw [← Nat.pow_add]
  rw [show 8 * input.length + d.num_bits = L by omega]
  exact hV

/-- The accumulator of a represented decoder is a valid u64. -/
theorem decRep_working_lt (d : aws_huffman_decoder) (input : List Nat) (V L : Nat)
    (h : decRep d input V L) : d.working_bits < 2 ^ 64 := by
  have htop := decRep_top_lt d input V L h
  obtain ⟨hL, h39, hV, hw, hb, hlow⟩ := h
  rw [hw, Nat.shiftLeft_eq]
  calc V >>> (8 * input.length) * 2 ^ (64 - d.num_bits)
      < 2 ^ d.num_bits * 2 ^ (64 - d.num_bits) :=
        (Nat.mul_lt_mul_right (pow2_pos _)).mpr htop
    _ ≤ 2 ^ 64 := by rw [← Nat.pow_add]; exact Nat.pow_le_pow_right (by omega) (by omega)

/-- Topping up preserves the representation, and afterwards either a full
window is buffered or the cursor is drained. -/
theorem decode_fill_rep (V L : Nat) : ∀ (input : List Nat) (d : aws_huffman_decoder),
    decRep d input V L →
    decRep (decode_fill_working_bits d input).1 (decode_fill_working_bits d input).2 V L ∧
      (32 ≤ (decode_fill_working_bits d input).1.num_bits ∨
        (decode_fill_working_bits d input).2 = []) := by
  intro input
  induction input with
  | nil =>
    intro d h
    rw [decode_fill_working_bits]
    split
    · exact ⟨h, Or.inr rfl⟩
    · exact ⟨h, Or.inr rfl⟩
  | cons b rest ih =>
    intro d h
    obtain ⟨hL, h39, hV, hw, hb, hlow⟩ := h
    rw [decode_fill_working_bits]
    split
    · -- another byte is pulled in
      next hn32 =>
      apply ih
      have hblt : b < 2 ^ 8 := hb b (List.mem_cons_self b rest)
      have hrest : ∀ x ∈ rest, x < 2 ^ 8 := fun x hx => hb x (List.mem_cons_of_mem b hx)
      have hrlt : bytesVal rest < 2 ^ (8 * rest.length) := bytesVal_lt rest hrest
      simp only [List.length_cons] at hL hw hlow
      have h81 : 8 * (rest.length + 1) = 8 + 8 * rest.length := by ring
      rw [h81] at hL hw hlow
      have hmod : V % 2 ^ (8 + 8 * rest.length) =
          b * 2 ^ (8 * rest.length) + bytesVal rest := hlow.trans rfl
      have hAdef : V >>> (8 + 8 * rest.length) = (V >>> (8 * rest.length)) / 2 ^ 8 := by
        rw [Nat.shiftRight_eq_div_pow, Nat.shiftRight_eq_div_pow, Nat.div_div_eq_div_mul,
          ← Nat.pow_add]
        rw [show 8 * rest.length + 8 = 8 + 8 * rest.length by ring]
      have hBmod : (V >>> (8 * rest.length)) % 2 ^ 8 = b := by
        rw [← mod_pow_shiftRight V 8 (8 * rest.length), hmod, Nat.shiftRight_eq_div_pow,
          split_div_pow _ _ _ _ (le_refl _), Nat.sub_self, Nat.pow_zero, Nat.mul_one,
          Nat.div_eq_of_lt hrlt, Nat.add_zero]
      have hBsplit : V >>> (8 * rest.length) =
          V >>> (8 + 8 * rest.length) * 2 ^ 8 + b := by
        rw [hAdef, ← hBmod]
        omega
      refine ⟨by show L = d.num_bits + 8 + 8 * rest.length; omega,
        by show d.num_bits + 8 ≤ 39; omega, hV, ?_, hrest, ?_⟩
      · show d.working_bits ||| b <<< (64 - 8 - d.num_bits) =
          V >>> (8 * rest.length) <<< (64 - (d.num_bits + 8))
        rw [hw]
        have hdisj : (V >>> (8 + 8 * rest.length)) <<< (64 - d.num_bits) |||
            b <<< (64 - 8 - d.num_bits) =
            (V >>> (8 + 8 * rest.length)) <<< (64 - d.num_bits) +
              b <<< (64 - 8 - d.num_bits) := by
          apply lor_eq_add_of_disjoint _ _ (64 - d.num_bits)
          · rw [Nat.shiftLeft_eq]
            exact Nat.mul_mod_left _ _
          · rw [Nat.shiftLeft_eq]
            calc b * 2 ^ (64 - 8 - d.num_bits) < 2 ^ 8 * 2 ^ (64 - 8 - d.num_bits) :=
                  (Nat.mul_lt_mul_right (pow2_pos _)).mpr hblt
              _ = 2 ^ (64 - d.num_bits) := by rw [← Nat.pow_add]; congr 1; omega
        rw [hdisj, hBsplit, show (64 : Nat) - (d.num_bits + 8) = 64 - 8 - d.num_bits by omega]
        simp only [Nat.shiftLeft_eq]
        rw [show (64 : Nat) - d.num_bits = 8 + (64 - 8 - d.num_bits) by omega, Nat.pow_add]
        ring
      · show V % 2 ^ (8 * rest.length) = bytesVal rest
        have hsub : V % 2 ^ (8 * rest.length) =
            (V % 2 ^ (8 + 8 * rest.length)) % 2 ^ (8 * rest.length) :=
          (mod_pow_mod_pow _ _ _ (by omega)).symm
        rw [hsub, hmod, split_mod_pow _ _ _ _ (le_refl _)]
        exact Nat.mod_eq_of_lt hrlt
    · -- a full window is already buffered
      next hge =>
      exact ⟨⟨hL, h39, hV, hw, hb, hlow⟩, Or.inl (show 32 ≤ d.num_bits by omega)⟩

/-- The 32-bit window of a represented decoder shows the stream's first
bits: for `nb ≤ min(32, num_bits)`, its top `nb` bits are the stream's
first `nb` bits. -/
theorem decRep_window (d : aws_huffman_decoder) (input : List Nat) (V L nb : Nat)
    (h : decRep d input V L) (hnb32 : nb ≤ 32) (hnbn : nb ≤ d.num_bits) :
    (d.working_bits >>> (64 - 32)) >>> (32 - nb) = V >>> (L - nb) := by
  have h39 : d.num_bits ≤ 39 := h.2.1
  have hL : L = d.num_bits + 8 * input.length := h.1
  have hw : d.working_bits = (V >>> (8 * input.length)) <<< (64 - d.num_bits) := h.2.2.2.1
  rw [hw, Nat.shiftLeft_eq, Nat.shiftRight_eq_div_pow V (8 * input.length),
    Nat.shiftRight_eq_div_pow, Nat.shiftRight_eq_div_pow, Nat.shiftRight_eq_div_pow]
  by_cases hn32 : d.num_bits ≤ 32
  · rw [show (64 : Nat) - 32 = 32 by omega]
    rw [mul_pow_div_pow_le _ _ _ (by omega : (32 : Nat) ≤ 64 - d.num_bits)]
    rw [show (64 : Nat) - d.num_bits - 32 = 32 - d.num_bits by omega]
    rw [mul_pow_div_pow_ge _ _ _ (by omega : 32 - d.num_bits ≤ 32 - nb)]
    rw [show (32 : Nat) - nb - (32 - d.num_bits) = d.num_bits - nb by omega]
    rw [Nat.div_div_eq_div_mul, ← Nat.pow_add]
    rw [show 8 * input.length + (d.num_bits - nb) = L - nb by omega]
  · rw [show (64 : Nat) - 32 = 32 by omega]
    rw [mul_pow_div_pow_ge _ _ _ (by omega : 64 - d.num_bits ≤ 32)]
    rw [show (32 : Nat) - (64 - d.num_bits) = d.num_bits - 32 by omega]
    rw [Nat.div_div_eq_div_mul, ← Nat.pow_add, Nat.div_div_eq_div_mul, ← Nat.pow_add]
    rw [show 8 * input.length + (d.num_bits - 32 + (32 - nb)) = L - nb by omega]

/-- Consuming `nb` buffered bits (left shift plus wrapped decrement) drops
the first `nb` bits of the represented string. -/
theorem decRep_consume (d : aws_huffman_decoder) (input : List Nat) (V L nb : Nat)
    (h : decRep d input V L) (hnbn : nb ≤ d.num_bits) :
    decRep ⟨(d.working_bits <<< nb) % 2 ^ 64, (d.num_bits + 2 ^ 8 - nb) % 2 ^ 8⟩ input
      (V % 2 ^ (L - nb)) (L - nb) := by
  obtain ⟨hL, h39, hV, hw, hb, hlow⟩ := h
  have hn' : (d.num_bits + 2 ^ 8 - nb) % 2 ^ 8 = d.num_bits - nb := by omega
  refine ⟨by show L - nb = (d.num_bits + 2 ^ 8 - nb) % 2 ^ 8 + 8 * input.length; omega,
    by show (d.num_bits + 2 ^ 8 - nb) % 2 ^ 8 ≤ 39; omega,
    Nat.mod_lt _ (pow2_pos _), ?_, hb, ?_⟩
  · show (d.working_bits <<< nb) % 2 ^ 64 =
      ((V % 2 ^ (L - nb)) >>> (8 * input.length)) <<< (64 - (d.num_bits + 2 ^ 8 - nb) % 2 ^ 8)
    rw [hn', hw]
    have hsh : ((V >>> (8 * input.length)) <<< (64 - d.num_bits)) <<< nb =
        (V >>> (8 * input.length)) <<< (64 - (d.num_bits - nb)) := by
      rw [Nat.shiftLeft_eq, Nat.shiftLeft_eq, Nat.shiftLeft_eq, Nat.mul_assoc, ← Nat.pow_add]
      rw [show (64 : Nat) - d.num_bits + nb = 64 - (d.num_bits - nb) by omega]
    rw [hsh, shiftLeft_mod_pow' _ _ _ (by omega : 64 - (d.num_bits - nb) ≤ 64)]
    rw [show (64 : Nat) - (64 - (d.num_bits - nb)) = d.num_bits - nb by omega]
    rw [show L - nb = (d.num_bits - nb) + 8 * input.length by omega, mod_pow_shiftRight,
      Nat.shiftLeft_eq]
  · show (V % 2 ^ (L - nb)) % 2 ^ (8 * input.length) = bytesVal input
    rw [mod_pow_mod_pow _ _ _ (by omega : 8 * input.length ≤ L - nb), hlow]

/-! ## The decode loop on a (possibly partial) valid code stream -/

theorem head_div (x t b : Nat) (ht : t < 2 ^ b) : (x * 2 ^ b + t) >>> b = x := by
  rw [Nat.shiftRight_eq_div_pow, split_div_pow _ _ _ _ (le_refl _), Nat.sub_self,
    Nat.pow_zero, Nat.mul_one, Nat.div_eq_of_lt ht, Nat.add_zero]

theorem shiftRight_shiftRight (x a b : Nat) : (x >>> a) >>> b = x >>> (a + b) :=
  (Nat.shiftRight_add x a b).symm

theorem codeSeqLen_append (coder : aws_huffman_symbol_coder) (l₁ l₂ : List Nat) :
    codeSeqLen coder (l₁ ++ l₂) = codeSeqLen coder l₁ + codeSeqLen coder l₂ := by
  induction l₁ with
  | nil => simp [codeSeqLen]
  | cons s rest ih =>
    show codeSeqLen coder (s :: (rest ++ l₂)) = _
    simp only [codeSeqLen, ih]
    omega

/-- One `aws_huffman_decode_loop` run over the available prefix (`La` bits)
of a padded code stream: it emits the maximal prefix of the pending symbols
whose codes fit in the available bits, drains the cursor, and leaves the
decoder buffering exactly the leftover bits.  The output buffer has exactly
enough room for all pending symbols (the exact-capacity protocol). -/
theorem decode_loop_partial (coder : aws_huffman_symbol_coder)
    (hdecm : ∀ s, s < 2 ^ 8 → 1 ≤ (coder.encode s).num_bits →
      (coder.encode s).num_bits ≤ 32 → ∀ w, w < 2 ^ 32 →
      w >>> (32 - (coder.encode s).num_bits) =
        (coder.encode s).pattern % 2 ^ (coder.encode s).num_bits →
      coder.decode w = (s, (coder.encode s).num_bits))
    (hdecn : ∀ w, w < 2 ^ 32 →
      (∀ s, s < 2 ^ 8 → 1 ≤ (coder.encode s).num_bits →
        (coder.encode s).num_bits ≤ 32 →
        w >>> (32 - (coder.encode s).num_bits) ≠
          (coder.encode s).pattern % 2 ^ (coder.encode s).num_bits) →
      (coder.decode w).2 % 2 ^ 8 = 0) :
    ∀ (rem : List Nat) (pad padV La : Nat) (d : aws_huffman_decoder)
      (input : List Nat) (output : aws_byte_buf),
      (∀ s ∈ rem, s < 2 ^ 8 ∧ 1 ≤ (coder.encode s).num_bits ∧
        (coder.encode s).num_bits ≤ 32) →
      pad < 8 → padV < 2 ^ pad →
      La ≤ codeSeqLen coder rem + pad →
      decRep d input
        ((codeSeqVal coder rem * 2 ^ pad + padV) >>>
          (codeSeqLen coder rem + pad - La)) La →
      output.data.length + rem.length = output.capacity →
      ∃ j, j ≤ rem.length ∧
        (aws_huffman_decode_loop coder d input output La).2.2.2.data =
          output.data ++ rem.take j ∧
        (aws_huffman_decode_loop coder d input output La).2.2.2.capacity =
          output.capacity ∧
        (aws_huffman_decode_loop coder d input output La).2.2.1 = [] ∧
        codeSeqLen coder (rem.take j) ≤ La ∧
        (j < rem.length → La < codeSeqLen coder (rem.take (j + 1))) ∧
        decRep (aws_huffman_decode_loop coder d input output La).2.1 []
          ((codeSeqVal coder (rem.drop j) * 2 ^ pad + padV) >>>
            (codeSeqLen coder (rem.drop j) + pad -
              (La - codeSeqLen coder (rem.take j))))
          (La - codeSeqLen coder (rem.take j)) := by
  intro rem
  induction rem with
  | nil =>
    intro pad padV La d input output hsym hpad hpadV hLa hrep hroom
    simp only [codeSeqLen, codeSeqVal] at hLa hrep
    obtain ⟨hrep₂, hcomp⟩ := decode_fill_rep _ _ input d hrep
    rcases hfill : decode_fill_working_bits d input with ⟨d₂, input₂⟩
    rw [hfill] at hrep₂ hcomp
    dsimp only at hrep₂ hcomp
    have hn₂ : La = d₂.num_bits + 8 * input₂.length := hrep₂.1
    have hinp₂ : input₂ = [] := by
      rcases hcomp with h32 | he
      · exfalso; omega
      · exact he
    have hlen0 : ([] : List Nat).length = 0 := rfl
    rw [aws_huffman_decode_loop, hfill]
    dsimp only
    by_cases hk : (coder.decode (d₂.working_bits >>> (64 - 32))).2 % 2 ^ 8 = 0
    · rw [if_pos hk, if_pos (by omega : La < 32)]
      refine ⟨0, by omega, by simp, rfl, hinp₂, by simp [codeSeqLen], by intro h; simp at h, ?_⟩
      simp only [List.drop_zero, List.take_zero, codeSeqLen, codeSeqVal, Nat.sub_zero]
      rw [hinp₂] at hrep₂
      exact hrep₂
    · rw [if_neg hk]
      by_cases hbk : La < (coder.decode (d₂.working_bits >>> (64 - 32))).2 % 2 ^ 8
      · rw [if_pos hbk]
        refine ⟨0, by omega, by simp, rfl, hinp₂, by simp [codeSeqLen], by intro h; simp at h, ?_⟩
        simp only [List.drop_zero, List.take_zero, codeSeqLen, codeSeqVal, Nat.sub_zero]
        rw [hinp₂] at hrep₂
        exact hrep₂
      · rw [if_neg hbk, if_pos (by omega : output.data.length = output.capacity)]
        refine ⟨0, by omega, by simp, rfl, hinp₂, by simp [codeSeqLen], by intro h; simp at h, ?_⟩
        simp only [List.drop_zero, List.take_zero, codeSeqLen, codeSeqVal, Nat.sub_zero]
        rw [hinp₂] at hrep₂
        exact hrep₂
  | cons s rest ih =>
    intro pad padV La d input output hsym hpad hpadV hLa hrep hroom
    obtain ⟨hs8, hnb1, hnb32⟩ := hsym s (List.mem_cons_self s rest)
    have hsym' : ∀ x ∈ rest, x < 2 ^ 8 ∧ 1 ≤ (coder.encode x).num_bits ∧
        (coder.encode x).num_bits ≤ 32 := fun x hx => hsym x (List.mem_cons_of_mem s hx)
    simp only [List.length_cons] at hroom
    -- abbreviations for the head code and the tail stream
    have hcv : codeSeqVal coder (s :: rest) =
        (coder.encode s).pattern % 2 ^ (coder.encode s).num_bits *
          2 ^ codeSeqLen coder rest + codeSeqVal coder rest := rfl
    have hcl : codeSeqLen coder (s :: rest) =
        (coder.encode s).num_bits + codeSeqLen coder rest := rfl
    have hPlt : (coder.encode s).pattern % 2 ^ (coder.encode s).num_bits <
        2 ^ (coder.encode s).num_bits := Nat.mod_lt _ (pow2_pos _)
    have hVtlt : codeSeqVal coder rest * 2 ^ pad + padV <
        2 ^ (codeSeqLen coder rest + pad) :=
      mulpow_add_lt _ _ _ _ (codeSeqVal_lt coder rest) hpadV
    have hVr : codeSeqVal coder (s :: rest) * 2 ^ pad + padV =
        (coder.encode s).pattern % 2 ^ (coder.encode s).num_bits *
          2 ^ (codeSeqLen coder rest + pad) +
          (codeSeqVal coder rest * 2 ^ pad + padV) := by
      rw [hcv, Nat.pow_add, Nat.add_mul, Nat.mul_assoc]
      ring
    obtain ⟨hrep₂, hcomp⟩ := decode_fill_rep _ _ input d hrep
    rcases hfill : decode_fill_working_bits d input with ⟨d₂, input₂⟩
    rw [hfill] at hrep₂ hcomp
    dsimp only at hrep₂ hcomp
    have hn₂sum : La = d₂.num_bits + 8 * input₂.length := hrep₂.1
    have hwlt64 : d₂.working_bits < 2 ^ 64 := decRep_working_lt _ _ _ _ hrep₂
    have hwlt : d₂.working_bits >>> (64 - 32) < 2 ^ 32 := by
      rw [Nat.shiftRight_eq_div_pow]
      apply Nat.div_lt_of_lt_mul
      calc d₂.working_bits < 2 ^ 64 := hwlt64
        _ = 2 ^ (64 - 32) * 2 ^ 32 := by rw [← Nat.pow_add]
    by_cases hfit : (coder.encode s).num_bits ≤ La
    · -- the head code is fully available: it is emitted
      have hnbn₂ : (coder.encode s).num_bits ≤ d₂.num_bits := by
        rcases hcomp with h32 | he
        · omega
        · rw [he] at hn₂sum
          simp only [List.length_nil] at hn₂sum
          omega
      -- the stream's first num_bits bits are the head pattern
      have htail_lt : (codeSeqVal coder rest * 2 ^ pad + padV) >>>
          (codeSeqLen coder rest + pad - (La - (coder.encode s).num_bits)) <
          2 ^ (La - (coder.encode s).num_bits) := by
        rw [Nat.shiftRight_eq_div_pow]
        apply Nat.div_lt_of_lt_mul
        calc codeSeqVal coder rest * 2 ^ pad + padV
            < 2 ^ (codeSeqLen coder rest + pad) := hVtlt
          _ ≤ 2 ^ (codeSeqLen coder rest + pad - (La - (coder.encode s).num_bits)) *
              2 ^ (La - (coder.encode s).num_bits) := by
            rw [← Nat.pow_add]
            apply Nat.pow_le_pow_right (by omega)
            rw [hcl] at hLa
            omega
      have hVavail : (codeSeqVal coder (s :: rest) * 2 ^ pad + padV) >>>
          (codeSeqLen coder (s :: rest) + pad - La) =
          (coder.encode s).pattern % 2 ^ (coder.encode s).num_bits *
            2 ^ (La - (coder.encode s).num_bits) +
            (codeSeqVal coder rest * 2 ^ pad + padV) >>>
              (codeSeqLen coder rest + pad - (La - (coder.encode s).num_bits)) := by
        rw [hVr, hcl,
          show (coder.encode s).num_bits + codeSeqLen coder rest + pad - La =
            codeSeqLen coder rest + pad - (La - (coder.encode s).num_bits) by omega,
          Nat.shiftRight_eq_div_pow, Nat.shiftRight_eq_div_pow,
          split_div_pow _ _ _ _ (by rw [hcl] at hLa; omega),
          show codeSeqLen coder rest + pad -
            (codeSeqLen coder rest + pad - (La - (coder.encode s).num_bits)) =
            La - (coder.encode s).num_bits by rw [hcl] at hLa; omega]
      have hheadA : ((codeSeqVal coder (s :: rest) * 2 ^ pad + padV) >>>
          (codeSeqLen coder (s :: rest) + pad - La)) >>> (La - (coder.encode s).num_bits) =
          (coder.encode s).pattern % 2 ^ (coder.encode s).num_bits := by
        rw [hVavail]
        exact head_div _ _ _ htail_lt
      have hkey : ((codeSeqVal coder (s :: rest) * 2 ^ pad + padV) >>>
          (codeSeqLen coder (s :: rest) + pad - La)) % 2 ^ (La - (coder.encode s).num_bits) =
          (codeSeqVal coder rest * 2 ^ pad + padV) >>>
            (codeSeqLen coder rest + pad - (La - (coder.encode s).num_bits)) := by
        rw [hVavail, split_mod_pow _ _ _ _ (le_refl _)]
        exact Nat.mod_eq_of_lt htail_lt
      have hwv : (d₂.working_bits >>> (64 - 32)) >>> (32 - (coder.encode s).num_bits) =
          (coder.encode s).pattern % 2 ^ (coder.encode s).num_bits := by
        rw [decRep_window d₂ input₂ _ _ (coder.encode s).num_bits hrep₂ hnb32 hnbn₂]
        exact hheadA
      have hdw : coder.decode (d₂.working_bits >>> (64 - 32)) =
          (s, (coder.encode s).num_bits) :=
        hdecm s hs8 hnb1 hnb32 _ hwlt hwv
      have hnbmod : (coder.encode s).num_bits % 2 ^ 8 = (coder.encode s).num_bits :=
        Nat.mod_eq_of_lt (by omega)
      have hsmod : s % 2 ^ 8 = s := Nat.mod_eq_of_lt hs8
      have hwrite : aws_byte_buf_write_u8 output s =
          ⟨output.data ++ [s], output.capacity⟩ := by
        rw [aws_byte_buf_write_u8, if_pos (by omega)]
      rw [aws_huffman_decode_loop, hfill]
      dsimp only
      rw [hdw]
      dsimp only
      rw [hnbmod]
      rw [if_neg (by omega : ¬(coder.encode s).num_bits = 0)]
      rw [if_neg (by omega : ¬La < (coder.encode s).num_bits)]
      rw [if_neg (by omega : ¬output.data.length = output.capacity)]
      rw [hsmod, hwrite]
      have hrep' := decRep_consume d₂ input₂ _ _ (coder.encode s).num_bits hrep₂ hnbn₂
      rw [hkey] at hrep'
      by_cases hend : La - (coder.encode s).num_bits = 0
      · rw [if_pos hend]
        have hinp₂ : input₂ = [] := by
          apply List.eq_nil_of_length_eq_zero
          omega
        refine ⟨1, by rw [List.length_cons]; omega, ?_, rfl, hinp₂, ?_, ?_, ?_⟩
        · show output.data ++ [s] = output.data ++ (s :: rest).take 1
          rw [show (s :: rest).take 1 = [s] from rfl]
        · show codeSeqLen coder ((s :: rest).take 1) ≤ La
          rw [show (s :: rest).take 1 = [s] from rfl]
          show (coder.encode s).num_bits + codeSeqLen coder [] ≤ La
          simp only [codeSeqLen]
          omega
        · intro hlt
          simp only [List.length_cons] at hlt
          rcases rest with _ | ⟨t, ts⟩
          · simp at hlt
          · obtain ⟨-, ht1, -⟩ := hsym' t (List.mem_cons_self t ts)
            show La < codeSeqLen coder ((s :: t :: ts).take 2)
            rw [show (s :: t :: ts).take 2 = [s, t] from rfl]
            show La < (coder.encode s).num_bits +
              ((coder.encode t).num_bits + codeSeqLen coder [])
            simp only [codeSeqLen]
            omega
        · rw [show (s :: rest).take 1 = [s] from rfl, show (s :: rest).drop 1 = rest from rfl]
          rw [show codeSeqLen coder [s] = (coder.encode s).num_bits by
            show (coder.encode s).num_bits + codeSeqLen coder [] = _
            simp [codeSeqLen]]
          rw [hinp₂] at hrep'
          rw [hend] at hrep' ⊢
          exact hrep'
      · rw [if_neg hend]
        obtain ⟨j', hj', hdata', hcap', hinp', hclen', hmax', hrep''⟩ :=
          ih pad padV (La - (coder.encode s).num_bits) _ input₂
            ⟨output.data ++ [s], output.capacity⟩ hsym' hpad hpadV
            (by rw [hcl] at hLa; omega) hrep'
            (by
              show (output.data ++ [s]).length + rest.length = output.capacity
              rw [List.length_append, List.length_singleton]
              omega)
        refine ⟨j' + 1, by rw [List.length_cons]; omega, ?_, ?_, hinp', ?_, ?_, ?_⟩
        · rw [hdata']
          dsimp only
          rw [List.append_assoc, List.singleton_append,
            show (s :: rest).take (j' + 1) = s :: rest.take j' from rfl]
        · rw [hcap']
        · show codeSeqLen coder ((s :: rest).take (j' + 1)) ≤ La
          rw [show (s :: rest).take (j' + 1) = s :: rest.take j' from rfl]
          show (coder.encode s).num_bits + codeSeqLen coder (rest.take j') ≤ La
          omega
        · intro hlt
          simp only [List.length_cons] at hlt
          have hmx := hmax' (by omega)
          show La < codeSeqLen coder ((s :: rest).take (j' + 1 + 1))
          rw [show (s :: rest).take (j' + 1 + 1) = s :: rest.take (j' + 1) from rfl]
          show La < (coder.encode s).num_bits + codeSeqLen coder (rest.take (j' + 1))
          omega
        · rw [show (s :: rest).drop (j' + 1) = rest.drop j' from rfl,
            show (s :: rest).take (j' + 1) = s :: rest.take j' from rfl]
          rw [show codeSeqLen coder (s :: rest.take j') =
            (coder.encode s).num_bits + codeSeqLen coder (rest.take j') from rfl]
          rw [show La - ((coder.encode s).num_bits + codeSeqLen coder (rest.take j')) =
            La - (coder.encode s).num_bits - codeSeqLen coder (rest.take j') by omega]
          exact hrep''
    · -- the head code extends past the available bits: nothing is emitted
      have hn₂ : d₂.num_bits ≤ La := by omega
      have hinp₂ : input₂ = [] := by
        rcases hcomp with h32 | he
        · exfalso; omega
        · exact he
      have hn₂eq : d₂.num_bits = La := by
        rw [hinp₂] at hn₂sum
        simp only [List.length_nil] at hn₂sum
        omega
      -- the stream head seen through any fully-available width
      have hheadP : ∀ nb', nb' ≤ La →
          ((codeSeqVal coder (s :: rest) * 2 ^ pad + padV) >>>
            (codeSeqLen coder (s :: rest) + pad - La)) >>> (La - nb') =
          ((coder.encode s).pattern % 2 ^ (coder.encode s).num_bits) >>>
            ((coder.encode s).num_bits - nb') := by
        intro nb' hle
        rw [shiftRight_shiftRight,
          show codeSeqLen coder (s :: rest) + pad - La + (La - nb') =
            (codeSeqLen coder rest + pad) + ((coder.encode s).num_bits - nb') by
              rw [hcl] at hLa ⊢; omega,
          ← shiftRight_shiftRight, hVr, head_div _ _ _ hVtlt]
      by_cases hmatch : ∃ s', s' < 2 ^ 8 ∧ 1 ≤ (coder.encode s').num_bits ∧
          (coder.encode s').num_bits ≤ 32 ∧
          (d₂.working_bits >>> (64 - 32)) >>> (32 - (coder.encode s').num_bits) =
            (coder.encode s').pattern % 2 ^ (coder.encode s').num_bits
      · obtain ⟨s', hs'8, hs'1, hs'32, hs'w⟩ := hmatch
        have hdw : coder.decode (d₂.working_bits >>> (64 - 32)) =
            (s', (coder.encode s').num_bits) :=
          hdecm s' hs'8 hs'1 hs'32 _ hwlt hs'w
        -- the matched code cannot fit in the available bits
        have hgt : La < (coder.encode s').num_bits := by
          by_contra hle
          push_neg at hle
          -- both codes would match the pure head-code window
          have hP32 : ((coder.encode s).pattern % 2 ^ (coder.encode s).num_bits) <<<
              (32 - (coder.encode s).num_bits) < 2 ^ 32 := by
            rw [Nat.shiftLeft_eq]
            calc (coder.encode s).pattern % 2 ^ (coder.encode s).num_bits *
                2 ^ (32 - (coder.encode s).num_bits)
                < 2 ^ (coder.encode s).num_bits * 2 ^ (32 - (coder.encode s).num_bits) :=
                  (Nat.mul_lt_mul_right (pow2_pos _)).mpr hPlt
              _ ≤ 2 ^ 32 := by
                  rw [← Nat.pow_add]
                  exact Nat.pow_le_pow_right (by omega) (by omega)
          have hws : (((coder.encode s).pattern % 2 ^ (coder.encode s).num_bits) <<<
              (32 - (coder.encode s).num_bits)) >>> (32 - (coder.encode s).num_bits) =
              (coder.encode s).pattern % 2 ^ (coder.encode s).num_bits := by
            rw [Nat.shiftLeft_eq, Nat.shiftRight_eq_div_pow]
            exact Nat.mul_div_cancel _ (pow2_pos _)
          have hd1 : coder.decode (((coder.encode s).pattern %
              2 ^ (coder.encode s).num_bits) <<< (32 - (coder.encode s).num_bits)) =
              (s, (coder.encode s).num_bits) :=
            hdecm s hs8 hnb1 hnb32 _ hP32 hws
          -- the window's top nb' bits in the genuine stream
          have hwv' : (d₂.working_bits >>> (64 - 32)) >>> (32 - (coder.encode s').num_bits) =
              ((coder.encode s).pattern % 2 ^ (coder.encode s).num_bits) >>>
                ((coder.encode s).num_bits - (coder.encode s').num_bits) := by
            rw [decRep_window d₂ input₂ _ _ (coder.encode s').num_bits hrep₂ hs'32 (by omega)]
            exact hheadP (coder.encode s').num_bits hle
          have hws' : (((coder.encode s).pattern % 2 ^ (coder.encode s).num_bits) <<<
              (32 - (coder.encode s).num_bits)) >>> (32 - (coder.encode s').num_bits) =
              (coder.encode s').pattern % 2 ^ (coder.encode s').num_bits := by
            rw [Nat.shiftLeft_eq, Nat.shiftRight_eq_div_pow,
              mul_pow_div_pow_ge _ _ _ (by omega :
                32 - (coder.encode s).num_bits ≤ 32 - (coder.encode s').num_bits),
              show (32 : Nat) - (coder.encode s').num_bits -
                (32 - (coder.encode s).num_bits) =
                (coder.encode s).num_bits - (coder.encode s').num_bits by omega,
              ← Nat.shiftRight_eq_div_pow, ← hwv']
            exact hs'w
          have hd2 : coder.decode (((coder.encode s).pattern %
              2 ^ (coder.encode s).num_bits) <<< (32 - (coder.encode s).num_bits)) =
              (s', (coder.encode s').num_bits) :=
            hdecm s' hs'8 hs'1 hs'32 _ hP32 hws'
          rw [hd1] at hd2
          have : (coder.encode s).num_bits = (coder.encode s').num_bits :=
            congrArg Prod.snd hd2
          omega
        rw [aws_huffman_decode_loop, hfill]
        dsimp only
        rw [hdw]
        dsimp only
        rw [Nat.mod_eq_of_lt (show (coder.encode s').num_bits < 2 ^ 8 by omega)]
        rw [if_neg (by omega : ¬(coder.encode s').num_bits = 0)]
        rw [if_pos (by omega : La < (coder.encode s').num_bits)]
        refine ⟨0, by omega, by simp, rfl, hinp₂, by simp [codeSeqLen],
          by
            intro h
            rw [show (s :: rest).take (0 + 1) = [s] from rfl]
            simp only [codeSeqLen]
            omega, ?_⟩
        simp only [List.drop_zero, List.take_zero, codeSeqLen, Nat.sub_zero]
        rw [hinp₂] at hrep₂
        exact hrep₂
      · push_neg at hmatch
        have hk0 : (coder.decode (d₂.working_bits >>> (64 - 32))).2 % 2 ^ 8 = 0 :=
          hdecn _ hwlt hmatch
        rw [aws_huffman_decode_loop, hfill]
        dsimp only
        rw [if_pos hk0, if_pos (by omega : La < 32)]
        refine ⟨0, by omega, by simp, rfl, hinp₂, by simp [codeSeqLen],
          by
            intro h
            rw [show (s :: rest).take (0 + 1) = [s] from rfl]
            simp only [codeSeqLen]
            omega, ?_⟩
        simp only [List.drop_zero, List.take_zero, codeSeqLen, Nat.sub_zero]
        rw [hinp₂] at hrep₂
        exact hrep₂
